import Mathlib

/-!
Verification of the four lossless codecs of this repository
(`src/compression/lossless.py`): run-length coding, Huffman coding,
Golomb coding and LZW coding.

Python strings are modelled as `List Char`, Python's arbitrary-precision
integers as `Nat` (or `Int` where a subtraction may matter), Python dicts
as association lists (all inserts in these algorithms are at fresh keys,
so first-match lookup agrees with Python), and code that can raise an
exception (`KeyError`, `IndexError`, `ValueError`) returns an `Option`.
`while` loops and recursions on `n / 2` are given explicit fuel so that
every definition reduces in the kernel; in each use the fuel provably
suffices, so the fuel-exhausted branch is never taken.

Python's `heapq` is modelled by its documented semantics: `heappop`
returns the smallest element of the heap (Python list comparison gives a
strict total order on the heap elements arising here, since the symbol
sets of distinct heap nodes are disjoint, so the smallest element is
unique and this model is exact).

`math.log2` / `math.ceil(math.log2 m)` on integer inputs are modelled by
exact integer base-2 logarithms (`pyLog2`, `pyCeilLog2`).
-/

/-- Lookup in a Python dict modelled as an association list (first match;
all inserts in the modelled code are at fresh keys). -/
def pyGet {α β : Type} [DecidableEq α] (d : List (α × β)) (k : α) : Option β :=
  (d.find? (fun p => p.1 = k)).map (fun p => p.2)

/-- The ASCII character of a decimal digit value. -/
def digitChar (d : Nat) : Char := Char.ofNat (48 + d)

/-- Big-endian decimal digits of `n`, with explicit fuel (the recursion is
on `n / 10`); models Python's `str(n)` for `n : Nat`. -/
def natToDecFuel : Nat → Nat → List Char
  | 0, _ => []
  | f + 1, n => if n < 10 then [digitChar n] else natToDecFuel f (n / 10) ++ [digitChar (n % 10)]

/-- Python `str(n)` for a natural number `n`. -/
def natToDec (n : Nat) : List Char := natToDecFuel (n + 1) n

/-- Python `int(s)` on a non-empty string of ASCII decimal digits. -/
def pyIntDec (s : List Char) : Nat := s.foldl (fun a c => 10 * a + (c.toNat - 48)) 0

/-- The character of one binary digit value. -/
def bitChar (n : Nat) : Char := if n = 1 then '1' else '0'

/-- Big-endian binary digits of `n`, with explicit fuel (the recursion is
on `n / 2`); `natToBinFuel f 0 = "0"` like Python's `format(0, "b")`. -/
def natToBinFuel : Nat → Nat → List Char
  | 0, _ => []
  | f + 1, n => if n < 2 then [bitChar n] else natToBinFuel f (n / 2) ++ [bitChar (n % 2)]

/-- Binary digit string of `n`, as produced by Python's `format(n, "b")`. -/
def natToBin (n : Nat) : List Char := natToBinFuel (n + 1) n

/-- Zero-pad a digit string on the left to width `w`: together with
`natToBin` this models Python's `format(n, f"0{w}b")`. -/
def padZeros (w : Nat) (s : List Char) : List Char :=
  List.replicate (w - s.length) '0' ++ s

/-- Value of one binary digit character. -/
def bitVal (c : Char) : Nat := if c = '1' then 1 else 0

/-- Python `int(s, 2)` on a string of binary digits. -/
def parseBin (s : List Char) : Nat := s.foldl (fun a c => 2 * a + bitVal c) 0

/-- Exact integer base-2 logarithm with explicit fuel (recursion on
`n / 2`); models `int(math.log2 m)` at the powers of two where the
reference code uses it. -/
def log2Fuel : Nat → Nat → Nat
  | 0, _ => 0
  | f + 1, n => if 2 ≤ n then log2Fuel f (n / 2) + 1 else 0

/-- `int(math.log2 n)` for `n` a power of two, modelled exactly. -/
def pyLog2 (n : Nat) : Nat := log2Fuel n n

/-- `math.ceil(math.log2 n)` on a positive integer, modelled exactly:
the least `b` with `n ≤ 2 ^ b`. -/
def pyCeilLog2 (n : Nat) : Nat := if n ≤ 1 then 0 else pyLog2 (n - 1) + 1

namespace RunLengthEncoding

/-- Loop body of `RunLengthEncoding.encode`: `prev` is the character of
the current run, `count` its length so far, and the list the input not
yet scanned; on a boundary (or at the end) it emits `str(count) + prev`. -/
def encode_go : Char → Nat → List Char → List Char
  | prev, count, [] => natToDec count ++ [prev]
  | prev, count, c :: rest =>
    if c = prev then encode_go prev (count + 1) rest
    else natToDec count ++ prev :: encode_go c 1 rest

/-- `RunLengthEncoding.encode` (src/compression/lossless.py:23): empty
input gives empty output, otherwise count+character pairs. -/
def encode (data : List Char) : List Char :=
  match data with
  | [] => []
  | c :: rest => encode_go c 1 rest

/-- Loop body of `RunLengthEncoding.decode`: `countAcc` accumulates the
digit characters seen since the last run was emitted.  On a non-digit
character Python runs `int(count)`, which raises `ValueError` when the
accumulator is empty — modelled as `none`. -/
def decode_go : List Char → List Char → Option (List Char)
  | _, [] => some []
  | countAcc, c :: rest =>
    if c.isDigit then decode_go (countAcc ++ [c]) rest
    else if countAcc = [] then none
    else (decode_go [] rest).map (fun tail => List.replicate (pyIntDec countAcc) c ++ tail)

/-- `RunLengthEncoding.decode` (src/compression/lossless.py:55). -/
def decode (encoded : List Char) : Option (List Char) :=
  decode_go [] encoded

end RunLengthEncoding

namespace HuffmanCoding

/-- One heap element of `HuffmanCoding`: the Python list
`[weight, [char1, code1], [char2, code2], ...]`. -/
structure HNode where
  w : Nat
  ps : List (Char × List Char)
  deriving DecidableEq, Repr

/-- Python `<` on two strings (code-point lexicographic). -/
def strLtB : List Char → List Char → Bool
  | [], [] => false
  | [], _ :: _ => true
  | _ :: _, [] => false
  | a :: s, b :: t => if a < b then true else if b < a then false else strLtB s t

/-- Python `<` on two `[char, code]` pairs (element-wise, characters as
one-character strings). -/
def pairLtB (p q : Char × List Char) : Bool :=
  if p.1 < q.1 then true
  else if q.1 < p.1 then false
  else strLtB p.2 q.2

/-- Python `<` on the `[char, code]` lists of two heap elements
(lexicographic, a strict prefix being smaller). -/
def pairsLtB : List (Char × List Char) → List (Char × List Char) → Bool
  | [], [] => false
  | [], _ :: _ => true
  | _ :: _, [] => false
  | p :: ps, q :: qs => if pairLtB p q then true else if pairLtB q p then false
    else if p = q then pairsLtB ps qs else false

/-- Python list comparison of two heap elements
`[weight, pair, ...] < [weight', pair', ...]`. -/
def nodeLtB (a b : HNode) : Bool :=
  if a.w < b.w then true else if b.w < a.w then false else pairsLtB a.ps b.ps

/-- Accumulator loop extracting the (unique) smallest heap element:
returns the leftmost minimum and the remaining elements. -/
def popMin_go : HNode → List HNode → HNode × List HNode
  | m, [] => (m, [])
  | m, x :: xs =>
    if nodeLtB x m then
      let r := popMin_go x xs
      (r.1, m :: r.2)
    else
      let r := popMin_go m xs
      (r.1, x :: r.2)

/-- `heapq.heappop`, by its documented semantics: remove and return the
smallest element.  `none` on an empty heap. -/
def popMin : List HNode → Option (HNode × List HNode)
  | [] => none
  | x :: xs => some (popMin_go x xs)

/-- The merge step of `build_codes`: prefix `'0'` to every code of the
smallest node and `'1'` to every code of the second smallest, and combine
them into one node with the summed weight. -/
def mergeNodes (s t : HNode) : HNode :=
  ⟨s.w + t.w, s.ps.map (fun p => (p.1, '0' :: p.2)) ++ t.ps.map (fun p => (p.1, '1' :: p.2))⟩

/-- `HuffmanCoding.build_frequency` (src/compression/lossless.py:114):
`Counter(text)`, an insertion-ordered map from character to count. -/
def build_frequency (text : List Char) : List (Char × Nat) :=
  text.foldl bump []
where
  /-- Add one occurrence of `c` to the counter. -/
  bump : List (Char × Nat) → Char → List (Char × Nat)
    | [], c => [(c, 1)]
    | (a, n) :: t, c => if a = c then (a, n + 1) :: t else (a, n) :: bump t c

/-- `HuffmanCoding.build_heap` (src/compression/lossless.py:124): one
element `[weight, [char, ""]]` per distinct character.  `heapq.heapify`
needs no model step here because `popMin` extracts minima directly. -/
def build_heap (freq : List (Char × Nat)) : List HNode :=
  freq.map (fun p => ⟨p.2, [(p.1, [])]⟩)

/-- The `while len(heap) > 1` loop of `build_codes`, with fuel (each
iteration shrinks the heap by one, so fuel `heap.length` suffices).
With zero or one element left Python returns `dict(heap[0][1:])`, which
raises `IndexError` on an empty heap — modelled as `none`. -/
def build_codes_go : Nat → List HNode → Option (List (Char × List Char))
  | _, [] => none
  | _, [n] => some n.ps
  | 0, _ :: _ :: _ => none
  | f + 1, h =>
    match popMin h with
    | none => none
    | some (s, r1) =>
      match popMin r1 with
      | none => none
      | some (s2, r2) => build_codes_go f (r2 ++ [mergeNodes s s2])

/-- `HuffmanCoding.build_codes` (src/compression/lossless.py:137). -/
def build_codes (heap : List HNode) : Option (List (Char × List Char)) :=
  build_codes_go heap.length heap

/-- `HuffmanCoding.huffman_encode` (src/compression/lossless.py:162):
concatenate `codes[ch]` over the text; a missing character raises
`KeyError`, modelled as `none`. -/
def huffman_encode (text : List Char) (codes : List (Char × List Char)) : Option (List Char) :=
  match text with
  | [] => some []
  | c :: rest =>
    match pyGet codes c, huffman_encode rest codes with
    | some s, some t => some (s ++ t)
    | _, _ => none

/-- `HuffmanCoding.compress` (src/compression/lossless.py:176): build the
frequency table, the heap and the codes, then encode; returns the encoded
bit string, the code table and the frequency table. -/
def compress (text : List Char) :
    Option (List Char × List (Char × List Char) × List (Char × Nat)) :=
  match build_codes (build_heap (build_frequency text)) with
  | none => none
  | some codes =>
    match huffman_encode text codes with
    | none => none
    | some encoded => some (encoded, codes, build_frequency text)

/-- Lookup in the decoder's reversed dictionary
`{code: char for char, code in codes.items()}`: on duplicate codes the
last entry wins, hence the reversal. -/
def revGet (codes : List (Char × List Char)) (s : List Char) : Option Char :=
  (codes.reverse.find? (fun p => p.2 = s)).map (fun p => p.1)

/-- Loop of `HuffmanCoding.decode`: consume bits into a candidate code,
emitting a character whenever the candidate is in the reversed
dictionary.  Returns the emitted characters; a trailing unmatched
candidate is silently dropped, exactly as in the source. -/
def decode_go (codes : List (Char × List Char)) : List Char → List Char → List Char
  | [], _ => []
  | b :: rest, cand =>
    match revGet codes (cand ++ [b]) with
    | some ch => ch :: decode_go codes rest []
    | none => decode_go codes rest (cand ++ [b])

/-- The final value of the candidate accumulator of `decode`'s loop (the
bits left undecoded at the end of the input). -/
def decode_leftover (codes : List (Char × List Char)) : List Char → List Char → List Char
  | [], cand => cand
  | b :: rest, cand =>
    match revGet codes (cand ++ [b]) with
    | some _ => decode_leftover codes rest []
    | none => decode_leftover codes rest (cand ++ [b])

/-- `HuffmanCoding.decode` (src/compression/lossless.py:200). -/
def decode (encoded_binary : List Char) (codes : List (Char × List Char)) : List Char :=
  decode_go codes encoded_binary []

/-- The code table is prefix-free: for two entries at distinct positions,
neither code is a prefix (`<+:`) of the other (in particular the codes
are pairwise distinct). -/
def prefFree (T : List (Char × List Char)) : Prop :=
  T.Pairwise (fun p q => ¬ (p.2 <+: q.2) ∧ ¬ (q.2 <+: p.2))

/-- The Kraft sum of a code table: the sum of `2 ^ (-length)` over its
codes, as a rational number. -/
def kraftSum (T : List (Char × List Char)) : ℚ :=
  (T.map (fun p => ((1 : ℚ) / 2) ^ p.2.length)).sum

/-- The characters carried by a heap, in order. -/
def heapChars (H : List HNode) : List Char :=
  ((H.map HNode.ps).flatten).map Prod.fst

/-- Node invariant of the `build_codes` loop: non-empty pair list,
prefix-free codes, Kraft sum exactly 1, and either a fresh singleton
`[(c, "")]` or all codes non-empty (true of every merged node). -/
def okNode (n : HNode) : Prop :=
  n.ps ≠ [] ∧ prefFree n.ps ∧ kraftSum n.ps = 1 ∧
    ((∃ c, n.ps = [(c, [])]) ∨ ∀ p ∈ n.ps, p.2 ≠ [])

/-- Heap invariant of the `build_codes` loop. -/
def okHeap (H : List HNode) : Prop :=
  (∀ n ∈ H, okNode n) ∧ (heapChars H).Nodup

end HuffmanCoding

namespace GolombCoding

/-- `GolombCoding.unary_encode` (src/compression/lossless.py:247):
`q` ones followed by a zero. -/
def unary_encode (q : Nat) : List Char :=
  List.replicate q '1' ++ ['0']

/-- The remainder part of `GolombCoding.encode`
(src/compression/lossless.py:277-290): fixed `k`-width binary when `m` is
a power of two (Python's power test `m & (m - 1) == 0`), truncated binary
with threshold `T = 2^b - m` otherwise, where `b = ceil(log2 m)` is
modelled exactly by `pyCeilLog2 m`. -/
def remainder_code (n m : Nat) : List Char :=
  let r := n % m
  if m &&& (m - 1) = 0 then
    padZeros (pyLog2 m) (natToBin r)
  else
    let b := pyCeilLog2 m
    let T := 2 ^ b - m
    if r < T then padZeros (b - 1) (natToBin r)
    else padZeros b (natToBin (r + T))

/-- `GolombCoding.encode` (src/compression/lossless.py:259): unary
quotient then remainder. -/
def encode (n m : Nat) : List Char :=
  unary_encode (n / m) ++ remainder_code n m

/-- `GolombCoding.decode` (src/compression/lossless.py:295): count the
leading ones as `q`, skip the zero separator, read the remainder by the
same case split as `encode`, and return `q * m + r`.  The result is an
`Int` because the truncated-binary branch subtracts `T`. -/
def decode (codeword : List Char) (m : Nat) : Int :=
  let q := (codeword.takeWhile (fun c => c = '1')).length
  let pos := q + 1
  let r : Int :=
    if m &&& (m - 1) = 0 then
      let k := pyLog2 m
      let rb := (codeword.drop pos).take k
      if rb = [] then 0 else (parseBin rb : Int)
    else
      let b := pyCeilLog2 m
      let T := 2 ^ b - m
      if pos + (b - 1) ≤ codeword.length then
        let rb := (codeword.drop pos).take (b - 1)
        let rt := if rb = [] then 0 else parseBin rb
        if rt < T then (rt : Int)
        else
          let rb2 := (codeword.drop pos).take b
          if rb2 = [] then 0 else (parseBin rb2 : Int) - (T : Int)
      else 0
  (q : Int) * (m : Int) + r

/-- `GolombCoding.compress` (src/compression/lossless.py:343): encode a
list of numbers, returning `(number, codeword)` pairs. -/
def compress (numbers : List Nat) (m : Nat) : List (Nat × List Char) :=
  numbers.map (fun n => (n, encode n m))

end GolombCoding

namespace LZWCoding

/-- The initial LZW dictionary: `chr(i) -> i` for `i` in `0..255`
(src/compression/lossless.py:383-386). -/
def initDict : List (List Char × Nat) :=
  (List.range 256).map (fun i => ([Char.ofNat i], i))

/-- Encoder state of `LZWCoding.encode`: the dictionary, the next free
code, the current match and the emitted codes. -/
structure EncSt where
  dict : List (List Char × Nat)
  next : Nat
  cur : List Char
  out : List Nat
  deriving Repr

/-- One loop iteration of `LZWCoding.encode` on the next character:
extend the current match if the combined string is known, otherwise emit
the code of the current match (a `KeyError`, modelled `none`, if it has
none), insert the combined string at the next free code and restart from
the single character. -/
def encode_step (st : EncSt) (ch : Char) : Option EncSt :=
  let combined := st.cur ++ [ch]
  match pyGet st.dict combined with
  | some _ => some ⟨st.dict, st.next, combined, st.out⟩
  | none =>
    match pyGet st.dict st.cur with
    | some code =>
      some ⟨st.dict ++ [(combined, st.next)], st.next + 1, [ch], st.out ++ [code]⟩
    | none => none

/-- The encoder loop over the input text. -/
def encode_go (st : EncSt) : List Char → Option EncSt
  | [] => some st
  | c :: rest =>
    match encode_step st c with
    | none => none
    | some st2 => encode_go st2 rest

/-- `LZWCoding.encode` (src/compression/lossless.py:375): run the loop
from the fresh dictionary, then emit the code of the last match if it is
non-empty; returns the codes and the final dictionary. -/
def encode (text : List Char) : Option (List Nat × List (List Char × Nat)) :=
  match encode_go ⟨initDict, 256, [], []⟩ text with
  | none => none
  | some st =>
    if st.cur ≠ [] then
      match pyGet st.dict st.cur with
      | some code => some (st.out ++ [code], st.dict)
      | none => none
    else some (st.out, st.dict)

/-- The initial decoder dictionary: `i -> chr(i)` for
`i` in `0..initial_dict_size-1` (src/compression/lossless.py:425). -/
def decInitDict (size : Nat) : List (Nat × List Char) :=
  (List.range size).map (fun i => (i, [Char.ofNat i]))

/-- Decoder state of `LZWCoding.decode`: the dictionary, the next code
to be assigned, the previously decoded string and the output so far. -/
structure DecSt where
  dict : List (Nat × List Char)
  next : Nat
  prev : List Char
  acc : List Char
  deriving Repr

/-- One loop iteration of `LZWCoding.decode` on the next code: look it
up, or reconstruct `previous + previous[0]` when it is exactly the next
code to be assigned (`ValueError`, modelled `none`, otherwise); then
extend the output, insert `previous + current[0]` at the next code, and
advance. -/
def decode_step (st : DecSt) (code : Nat) : Option DecSt :=
  let cur? : Option (List Char) :=
    match pyGet st.dict code with
    | some s => some s
    | none =>
      if code = st.next then
        match st.prev with
        | p :: _ => some (st.prev ++ [p])
        | [] => none
      else none
  match cur? with
  | none => none
  | some cur =>
    match cur with
    | c0 :: _ =>
      some ⟨st.dict ++ [(st.next, st.prev ++ [c0])], st.next + 1, cur, st.acc ++ cur⟩
    | [] => none

/-- The decoder loop over the remaining codes. -/
def decode_go (st : DecSt) : List Nat → Option DecSt
  | [] => some st
  | c :: rest =>
    match decode_step st c with
    | none => none
    | some st2 => decode_go st2 rest

/-- The decoder run on a whole code list: the first code is looked up in
the fresh dictionary (`KeyError`, modelled `none`, when absent), the rest
through `decode_go`. -/
def decode_run (codes : List Nat) (size : Nat) : Option DecSt :=
  match codes with
  | [] => none
  | c0 :: rest =>
    match pyGet (decInitDict size) c0 with
    | none => none
    | some s0 => decode_go ⟨decInitDict size, size, s0, s0⟩ rest

/-- `LZWCoding.decode` (src/compression/lossless.py:414): empty code list
decodes to the empty string. -/
def decode (codes : List Nat) (size : Nat) : Option (List Char) :=
  match codes with
  | [] => some []
  | _ :: _ => (decode_run codes size).map (fun st => st.acc)

/-- Encoder dictionary entries beyond the initial 256, paired with their
codes `base, base + 1, ...` in order. -/
def entriesEnc : List (List Char) → Nat → List (List Char × Nat)
  | [], _ => []
  | s :: rest, base => (s, base) :: entriesEnc rest (base + 1)

/-- Decoder dictionary entries beyond the initial ones, keyed by their
codes `base, base + 1, ...` in order. -/
def entriesDec : List (List Char) → Nat → List (Nat × List Char)
  | [], _ => []
  | s :: rest, base => (base, s) :: entriesDec rest (base + 1)

/-- Coupling invariant between the encoder state after consuming the
input prefix `p` and the decoder run on the codes emitted so far.
Either nothing was consumed; or the current match covers all of `p` and
nothing was emitted; or the decoder run on `st.out` succeeds with a
state `d` that has decoded everything except the current match, holds
the same grown dictionary shifted one entry behind the encoder (`D` is
the list of common new entries), and whose last decoded string `d.prev`
determines the encoder's newest entry `d.prev ++ [st.cur.headD 'a']`. -/
def EncInv (p : List Char) (st : EncSt) : Prop :=
  (p = [] ∧ st = ⟨initDict, 256, [], []⟩) ∨
  (p ≠ [] ∧ st.cur ≠ [] ∧ (pyGet st.dict st.cur).isSome ∧
    ((st.out = [] ∧ st.dict = initDict ∧ st.next = 256 ∧ st.cur = p) ∨
     (∃ (d : DecSt) (D : List (List Char)),
        decode_run st.out 256 = some d ∧
        d.acc ++ st.cur = p ∧ d.prev ≠ [] ∧
        d.dict = decInitDict 256 ++ entriesDec D 256 ∧
        d.next = 256 + D.length ∧
        st.dict = initDict ++ entriesEnc (D ++ [d.prev ++ [st.cur.headD 'a']]) 256 ∧
        st.next = 256 + D.length + 1)))

end LZWCoding

section DecimalLemmas

/-- Digit characters have value and class as expected. -/
theorem digitChar_isDigit {d : Nat} (hd : d < 10) : (digitChar d).isDigit = true := by
  interval_cases d <;> decide

/-- `toNat` of a digit character undoes `digitChar`. -/
theorem digitChar_toNat {d : Nat} (hd : d < 10) : (digitChar d).toNat - 48 = d := by
  interval_cases d <;> decide

/-- Every character of a fuelled decimal rendering is a digit. -/
theorem natToDecFuel_digits : ∀ f n, n < f → ∀ c ∈ natToDecFuel f n, c.isDigit = true := by
  intro f
  induction f with
  | zero => intro n hn; omega
  | succ f ih =>
    intro n hn c hc
    rw [natToDecFuel] at hc
    by_cases h10 : n < 10
    · simp only [if_pos h10, List.mem_singleton] at hc
      subst hc; exact digitChar_isDigit h10
    · simp only [if_neg h10, List.mem_append, List.mem_singleton] at hc
      rcases hc with hc | hc
      · exact ih (n / 10) (by omega) c hc
      · subst hc; exact digitChar_isDigit (Nat.mod_lt _ (by omega))

/-- A fuelled decimal rendering with sufficient fuel is non-empty. -/
theorem natToDecFuel_ne_nil : ∀ f n, n < f → natToDecFuel f n ≠ [] := by
  intro f
  induction f with
  | zero => intro n hn; omega
  | succ f ih =>
    intro n hn
    rw [natToDecFuel]
    by_cases h10 : n < 10
    · simp [h10]
    · simp [h10]

/-- `pyIntDec` on an appended digit. -/
theorem pyIntDec_append_digit (A : List Char) (c : Char) :
    pyIntDec (A ++ [c]) = 10 * pyIntDec A + (c.toNat - 48) := by
  simp [pyIntDec, List.foldl_append]

/-- Python's decimal parse undoes the fuelled decimal rendering. -/
theorem pyIntDec_natToDecFuel : ∀ f n, n < f → pyIntDec (natToDecFuel f n) = n := by
  intro f
  induction f with
  | zero => intro n hn; omega
  | succ f ih =>
    intro n hn
    rw [natToDecFuel]
    by_cases h10 : n < 10
    · simp only [if_pos h10]
      show pyIntDec ([] ++ [digitChar n]) = n
      rw [pyIntDec_append_digit, digitChar_toNat h10]
      simp [pyIntDec]
    · simp only [if_neg h10]
      rw [pyIntDec_append_digit, ih (n / 10) (by omega),
        digitChar_toNat (Nat.mod_lt _ (by omega))]
      omega

/-- Python's decimal parse undoes `str`. -/
theorem pyIntDec_natToDec (n : Nat) : pyIntDec (natToDec n) = n :=
  pyIntDec_natToDecFuel (n + 1) n (Nat.lt_succ_self n)

/-- Every character of `str(n)` is a digit, and `str(n)` is non-empty. -/
theorem natToDec_digits (n : Nat) :
    (∀ c ∈ natToDec n, c.isDigit = true) ∧ natToDec n ≠ [] :=
  ⟨natToDecFuel_digits (n + 1) n (Nat.lt_succ_self n),
   natToDecFuel_ne_nil (n + 1) n (Nat.lt_succ_self n)⟩

end DecimalLemmas

section RunLengthLemmas

/-- The decode loop shifts a block of digit characters into the count
accumulator. -/
theorem rle_decode_go_digits :
    ∀ ds acc l, (∀ c ∈ ds, c.isDigit = true) →
      RunLengthEncoding.decode_go acc (ds ++ l) = RunLengthEncoding.decode_go (acc ++ ds) l := by
  intro ds
  induction ds with
  | nil => intro acc l _; simp
  | cons d ds ih =>
    intro acc l hds
    have hd : d.isDigit = true := hds d (by simp)
    show RunLengthEncoding.decode_go acc (d :: (ds ++ l)) = _
    rw [RunLengthEncoding.decode_go, if_pos hd, ih (acc ++ [d]) l (fun c hc => hds c (by simp [hc]))]
    simp

/-- Decoding the run-length encoding of `replicate count prev ++ rest`
(the loop state with current character `prev` and count `count`) returns
exactly that string, when no character involved is a digit. -/
theorem rle_decode_encode_go :
    ∀ rest prev count, prev.isDigit = false → (∀ c ∈ rest, c.isDigit = false) →
      RunLengthEncoding.decode_go [] (RunLengthEncoding.encode_go prev count rest)
        = some (List.replicate count prev ++ rest) := by
  intro rest
  induction rest with
  | nil =>
    intro prev count hprev _
    rw [RunLengthEncoding.encode_go,
      rle_decode_go_digits (natToDec count) [] [prev] (natToDec_digits count).1]
    rw [RunLengthEncoding.decode_go]
    simp only [List.nil_append, hprev, Bool.false_eq_true, if_false,
      if_neg (natToDec_digits count).2]
    rw [RunLengthEncoding.decode_go]
    simp [pyIntDec_natToDec]
  | cons c rest ih =>
    intro prev count hprev hrest
    have hc : c.isDigit = false := hrest c (by simp)
    have hrest' : ∀ x ∈ rest, x.isDigit = false := fun x hx => hrest x (by simp [hx])
    rw [RunLengthEncoding.encode_go]
    by_cases hcp : c = prev
    · rw [if_pos hcp, ih prev (count + 1) hprev hrest']
      subst hcp
      rw [List.replicate_succ' count c]
      simp
    · rw [if_neg hcp]
      have : natToDec count ++ prev :: RunLengthEncoding.encode_go c 1 rest
          = natToDec count ++ (prev :: RunLengthEncoding.encode_go c 1 rest) := rfl
      rw [this, rle_decode_go_digits (natToDec count) [] _ (natToDec_digits count).1]
      rw [RunLengthEncoding.decode_go]
      simp only [List.nil_append, hprev, Bool.false_eq_true, if_false,
        if_neg (natToDec_digits count).2]
      rw [ih c 1 hc hrest']
      simp [pyIntDec_natToDec]

end RunLengthLemmas

/-- C10.  Run-length round-trip on digit-free ASCII strings: decoding the
encoding returns the input; concretely, `"AAAABBBCCDAA"` encodes to
`"4A3B2C1D2A"`, which decodes back to `"AAAABBBCCDAA"`. -/
theorem rle_roundtrip_digit_free :
    (∀ x : List Char, (∀ c ∈ x, c.toNat < 128 ∧ c.isDigit = false) →
      RunLengthEncoding.decode (RunLengthEncoding.encode x) = some x) ∧
    RunLengthEncoding.encode ['A','A','A','A','B','B','B','C','C','D','A','A']
      = ['4','A','3','B','2','C','1','D','2','A'] ∧
    RunLengthEncoding.decode ['4','A','3','B','2','C','1','D','2','A']
      = some ['A','A','A','A','B','B','B','C','C','D','A','A'] := by
  refine ⟨?_, by decide, by decide⟩
  intro x hx
  match x with
  | [] => rfl
  | c :: rest =>
    show RunLengthEncoding.decode_go [] (RunLengthEncoding.encode_go c 1 rest) = _
    rw [rle_decode_encode_go rest c 1 (hx c (by simp)).2
      (fun y hy => (hx y (by simp [hy])).2)]
    simp

/-- Witness for C10 at the concrete input `"XXY"`. -/
theorem rle_roundtrip_digit_free_witness :
    (∀ c ∈ (['X','X','Y'] : List Char), c.toNat < 128 ∧ c.isDigit = false) ∧
      RunLengthEncoding.decode (RunLengthEncoding.encode ['X','X','Y']) = some ['X','X','Y'] :=
  ⟨by decide, rle_roundtrip_digit_free.1 ['X','X','Y'] (by decide)⟩

section BinaryLemmas

/-- `parseBin`'s fold from an arbitrary accumulator. -/
theorem parseBin_go (s : List Char) : ∀ a : Nat,
    s.foldl (fun x c => 2 * x + bitVal c) a = a * 2 ^ s.length + parseBin s := by
  induction s with
  | nil => intro a; simp [parseBin]
  | cons c t ih =>
    intro a
    show t.foldl _ (2 * a + bitVal c) = _
    rw [ih (2 * a + bitVal c)]
    have hc : parseBin (c :: t) = bitVal c * 2 ^ t.length + parseBin t := by
      show t.foldl _ (2 * 0 + bitVal c) = _
      rw [ih (2 * 0 + bitVal c)]
      ring_nf
    rw [hc]
    simp [List.length_cons, Nat.pow_succ]
    ring

/-- `parseBin` across an append. -/
theorem parseBin_append (a b : List Char) :
    parseBin (a ++ b) = parseBin a * 2 ^ b.length + parseBin b := by
  show (a ++ b).foldl _ 0 = _
  rw [List.foldl_append]
  exact parseBin_go b (parseBin a)

/-- Leading zero characters do not change the parsed value. -/
theorem parseBin_zeros (j : Nat) : parseBin (List.replicate j '0') = 0 := by
  induction j with
  | zero => rfl
  | succ k ih =>
    rw [List.replicate_succ]
    show (List.replicate k '0').foldl _ (2 * 0 + bitVal '0') = 0
    have : (2 * 0 + bitVal '0') = 0 := by decide
    rw [this]
    exact ih

/-- Zero padding does not change the parsed value. -/
theorem parseBin_padZeros (w : Nat) (s : List Char) :
    parseBin (padZeros w s) = parseBin s := by
  rw [padZeros, parseBin_append, parseBin_zeros]
  simp

/-- Length of a zero-padded string. -/
theorem padZeros_length (w : Nat) (s : List Char) :
    (padZeros w s).length = max w s.length := by
  simp [padZeros]
  omega

/-- A binary digit's value is below 2. -/
theorem bitVal_lt_two (c : Char) : bitVal c < 2 := by
  rw [bitVal]
  split <;> omega

/-- `bitVal` undoes `bitChar` on digit values. -/
theorem bitVal_bitChar {r : Nat} (hr : r < 2) : bitVal (bitChar r) = r := by
  interval_cases r <;> decide

/-- `parseBin` undoes the fuelled binary rendering. -/
theorem natToBinFuel_parse : ∀ f n, n < f → parseBin (natToBinFuel f n) = n := by
  intro f
  induction f with
  | zero => intro n hn; omega
  | succ f ih =>
    intro n hn
    rw [natToBinFuel]
    by_cases h2 : n < 2
    · rw [if_pos h2]
      show parseBin ([] ++ [bitChar n]) = n
      rw [parseBin_append]
      show 0 * 2 ^ 1 + parseBin [bitChar n] = n
      have : parseBin [bitChar n] = bitVal (bitChar n) := by
        show List.foldl _ 0 [bitChar n] = _
        simp [List.foldl]
      rw [this, bitVal_bitChar h2]
      omega
    · rw [if_neg h2]
      rw [parseBin_append, ih (n / 2) (by omega)]
      have : parseBin [bitChar (n % 2)] = bitVal (bitChar (n % 2)) := by
        show List.foldl _ 0 [bitChar (n % 2)] = _
        simp [List.foldl]
      rw [this, bitVal_bitChar (Nat.mod_lt _ (by omega))]
      simp only [List.length_singleton, Nat.pow_one]
      omega

/-- Length bound for the fuelled binary rendering: `n < 2 ^ k` fits in
`k ≥ 1` digits. -/
theorem natToBinFuel_length : ∀ f n k, n < f → 1 ≤ k → n < 2 ^ k →
    (natToBinFuel f n).length ≤ k := by
  intro f
  induction f with
  | zero => intro n k hn; omega
  | succ f ih =>
    intro n k hn hk hnk
    rw [natToBinFuel]
    by_cases h2 : n < 2
    · rw [if_pos h2]
      simpa using hk
    · rw [if_neg h2]
      have hk2 : 2 ≤ k := by
        rcases Nat.lt_or_ge k 2 with h | h
        · have hk1 : k = 1 := by omega
          subst hk1
          simp at hnk
          omega
        · exact h
      have hp : 2 ^ k = 2 * 2 ^ (k - 1) := by
        cases k with
        | zero => omega
        | succ k0 =>
          show 2 ^ (k0 + 1) = 2 * 2 ^ (k0 + 1 - 1)
          simp [Nat.pow_succ]
          ring
      have hdiv : n / 2 < 2 ^ (k - 1) := by omega
      have := ih (n / 2) (k - 1) (by omega) (by omega) hdiv
      simp only [List.length_append, List.length_singleton]
      omega

/-- `parseBin` undoes `natToBin`. -/
theorem parseBin_natToBin (n : Nat) : parseBin (natToBin n) = n :=
  natToBinFuel_parse (n + 1) n (Nat.lt_succ_self n)

/-- `natToBin n` fits in `k ≥ 1` digits when `n < 2 ^ k`. -/
theorem natToBin_length_le {n k : Nat} (hk : 1 ≤ k) (h : n < 2 ^ k) :
    (natToBin n).length ≤ k :=
  natToBinFuel_length (n + 1) n k (Nat.lt_succ_self n) hk h

/-- Floor base-2 logarithm property of the fuelled log. -/
theorem log2Fuel_spec : ∀ f n, 1 ≤ n → n ≤ f →
    2 ^ log2Fuel f n ≤ n ∧ n < 2 ^ (log2Fuel f n + 1) := by
  intro f
  induction f with
  | zero => intro n h1 h2; omega
  | succ f ih =>
    intro n h1 h2
    rw [log2Fuel]
    by_cases hn : 2 ≤ n
    · rw [if_pos hn]
      have hf1 : 1 ≤ f := by omega
      have := ih (n / 2) (by omega) (by omega)
      rcases this with ⟨hlo, hhi⟩
      constructor
      · calc 2 ^ (log2Fuel f (n / 2) + 1) = 2 * 2 ^ log2Fuel f (n / 2) := by ring
          _ ≤ 2 * (n / 2) := by omega
          _ ≤ n := by omega
      · have : n < 2 * (2 ^ (log2Fuel f (n / 2) + 1)) := by omega
        calc n < 2 * 2 ^ (log2Fuel f (n / 2) + 1) := this
          _ = 2 ^ (log2Fuel f (n / 2) + 1 + 1) := by ring
    · rw [if_neg hn]
      simp
      omega

/-- `pyLog2` inverts powers of two. -/
theorem pyLog2_pow (k : Nat) : pyLog2 (2 ^ k) = k := by
  have h1 : 1 ≤ 2 ^ k := Nat.one_le_two_pow
  have := log2Fuel_spec (2 ^ k) (2 ^ k) h1 (le_refl _)
  rcases this with ⟨hlo, hhi⟩
  rw [pyLog2]
  set j := log2Fuel (2 ^ k) (2 ^ k) with hj
  have hjk : j ≤ k := by
    by_contra hc
    push_neg at hc
    have : 2 ^ k < 2 ^ j := Nat.pow_lt_pow_right (by norm_num) hc
    omega
  have hkj : k ≤ j := by
    by_contra hc
    push_neg at hc
    have : 2 ^ (j + 1) ≤ 2 ^ k := Nat.pow_le_pow_right (by norm_num) (by omega)
    omega
  omega

/-- For `m ≥ 2`, `pyCeilLog2 m` is the exact ceiling base-2 logarithm:
`2 ^ (b - 1) < m ≤ 2 ^ b` and `b ≥ 1`. -/
theorem pyCeilLog2_bounds {m : Nat} (hm : 2 ≤ m) :
    2 ^ (pyCeilLog2 m - 1) < m ∧ m ≤ 2 ^ pyCeilLog2 m ∧ 1 ≤ pyCeilLog2 m := by
  rw [pyCeilLog2, if_neg (by omega)]
  have h1 : 1 ≤ m - 1 := by omega
  have := log2Fuel_spec (m - 1) (m - 1) h1 (le_refl _)
  rcases this with ⟨hlo, hhi⟩
  rw [pyLog2] at *
  refine ⟨?_, ?_, by omega⟩
  · simpa using by omega
  · omega

end BinaryLemmas

section LandLemmas

/-- A power of two passes Python's `m & (m - 1) == 0` test. -/
theorem land_pow2 (k : Nat) : 2 ^ k &&& (2 ^ k - 1) = 0 := by
  apply Nat.eq_of_testBit_eq
  intro i
  rw [Nat.testBit_and, Nat.zero_testBit, Nat.testBit_two_pow_sub_one]
  by_cases h : k = i
  · subst h
    simp
  · rw [Nat.testBit_two_pow_of_ne h]
    simp

/-- A non-zero number has a set bit. -/
theorem exists_testBit {a : Nat} (ha : a ≠ 0) : ∃ i, a.testBit i = true := by
  by_contra hc
  push_neg at hc
  refine ha (Nat.eq_of_testBit_eq fun i => ?_)
  rw [Nat.zero_testBit]
  exact Bool.eq_false_iff.mpr (hc i)

/-- Conversely, only powers of two pass `m & (m - 1) == 0` (for `m ≥ 1`). -/
theorem land_eq_zero_pow : ∀ m, 1 ≤ m → m &&& (m - 1) = 0 → ∃ k, m = 2 ^ k := by
  intro m
  induction m using Nat.strong_induction_on with
  | _ m ih =>
    intro hm hland
    rcases Nat.lt_or_ge m 2 with h2 | h2
    · exact ⟨0, by omega⟩
    · by_cases hpar : m % 2 = 0
      · -- even case: recurse on m / 2
        have ha1 : 1 ≤ m / 2 := by omega
        have hstep : m / 2 &&& (m / 2 - 1) = 0 := by
          apply Nat.eq_of_testBit_eq
          intro i
          rw [Nat.testBit_and, Nat.zero_testBit]
          have e1 : (m / 2).testBit i = m.testBit (i + 1) := (Nat.testBit_succ m i).symm
          have e2 : (m / 2 - 1).testBit i = (m - 1).testBit (i + 1) := by
            rw [Nat.testBit_succ (m - 1) i]
            congr 1
            omega
          rw [e1, e2, ← Nat.testBit_and, hland, Nat.zero_testBit]
        obtain ⟨k, hk⟩ := ih (m / 2) (by omega) ha1 hstep
        exact ⟨k + 1, by rw [Nat.pow_succ]; omega⟩
      · -- odd case: m and m - 1 share the bit above any set bit of m / 2
        exfalso
        have ha0 : m / 2 ≠ 0 := by omega
        obtain ⟨i, hi⟩ := exists_testBit ha0
        have e1 : m.testBit (i + 1) = (m / 2).testBit i := Nat.testBit_succ m i
        have e2 : (m - 1).testBit (i + 1) = (m / 2).testBit i := by
          rw [Nat.testBit_succ (m - 1) i]
          congr 1
          omega
        have : (m &&& (m - 1)).testBit (i + 1) = true := by
          rw [Nat.testBit_and, e1, e2, hi]
          rfl
        rw [hland, Nat.zero_testBit] at this
        exact Bool.false_ne_true this

end LandLemmas

section GolombLemmas

/-- `parseBin` of a single character. -/
theorem parseBin_singleton (c : Char) : parseBin [c] = bitVal c := by
  show List.foldl _ 0 [c] = _
  simp [List.foldl]

/-- The Golomb codeword is the unary quotient, the zero separator, then
the remainder. -/
theorem golomb_encode_shape (n m : Nat) : GolombCoding.encode n m
    = List.replicate (n / m) '1' ++ '0' :: GolombCoding.remainder_code n m := by
  simp [GolombCoding.encode, GolombCoding.unary_encode]

/-- Counting leading ones of a unary-headed codeword. -/
theorem takeWhile_unary (q : Nat) (rest : List Char) :
    (List.replicate q '1' ++ '0' :: rest).takeWhile (fun c => c = '1')
      = List.replicate q '1' := by
  induction q with
  | zero => simp [List.takeWhile]
  | succ k ih =>
    rw [List.replicate_succ]
    show List.takeWhile _ ('1' :: (List.replicate k '1' ++ '0' :: rest)) = _
    rw [List.takeWhile_cons]
    simp [ih]

/-- Skipping the unary quotient and its separator. -/
theorem drop_unary (q : Nat) (rest : List Char) :
    (List.replicate q '1' ++ '0' :: rest).drop (q + 1) = rest := by
  have h : List.replicate q '1' ++ '0' :: rest = (List.replicate q '1' ++ ['0']) ++ rest := by
    simp
  rw [h]
  have hl : (List.replicate q '1' ++ ['0']).length = q + 1 := by simp
  rw [← hl, List.drop_left]

/-- Remainder for a power-of-two parameter: fixed-width binary of
`n % 2^k` padded to `k` (one character, not zero, when `k = 0`). -/
theorem remainder_pow_eq (n k : Nat) :
    GolombCoding.remainder_code n (2 ^ k) = padZeros k (natToBin (n % 2 ^ k)) := by
  rw [GolombCoding.remainder_code, if_pos (land_pow2 k), pyLog2_pow]

/-- For `k ≥ 1` the power-of-two remainder is exactly `k` characters. -/
theorem remainder_pow_length (n : Nat) {k : Nat} (hk : 1 ≤ k) :
    (GolombCoding.remainder_code n (2 ^ k)).length = k := by
  rw [remainder_pow_eq, padZeros_length]
  have := natToBin_length_le hk (Nat.mod_lt n (Nat.pos_pow_of_pos k (by norm_num)))
  omega

/-- For `m = 1` the remainder is the single character `"0"`. -/
theorem remainder_one (n : Nat) : GolombCoding.remainder_code n 1 = ['0'] := by
  have h := remainder_pow_eq n 0
  rw [pow_zero] at h
  rw [h, Nat.mod_one]
  rfl

/-- Arithmetic facts available in the non-power-of-two branch:
`m ≥ 3`, `b := pyCeilLog2 m ≥ 2`, `2^(b-1) < m < 2^b`, and the threshold
`T := 2^b - m` satisfies `1 ≤ T < 2^(b-1)`. -/
theorem golomb_npow_facts {m : Nat} (hm : 1 ≤ m) (hl : m &&& (m - 1) ≠ 0) :
    3 ≤ m ∧ 2 ≤ pyCeilLog2 m ∧ 2 ^ (pyCeilLog2 m - 1) < m ∧ m < 2 ^ pyCeilLog2 m ∧
      1 ≤ 2 ^ pyCeilLog2 m - m ∧ 2 ^ pyCeilLog2 m - m < 2 ^ (pyCeilLog2 m - 1) := by
  have hm1 : m ≠ 1 := by
    intro h
    subst h
    exact hl (by decide)
  have hm2 : m ≠ 2 := by
    intro h
    subst h
    exact hl (by decide)
  have hm3 : 3 ≤ m := by omega
  obtain ⟨hlow, hhigh, hb1⟩ := pyCeilLog2_bounds (m := m) (by omega)
  have hne : m ≠ 2 ^ pyCeilLog2 m := by
    intro h
    rw [h] at hl
    exact hl (land_pow2 _)
  have hborder : m < 2 ^ pyCeilLog2 m := by omega
  have hb2 : 2 ≤ pyCeilLog2 m := by
    by_contra hc
    push_neg at hc
    have hb : pyCeilLog2 m = 1 := by omega
    rw [hb] at hhigh
    simp at hhigh
    omega
  have hpow : 2 ^ pyCeilLog2 m = 2 * 2 ^ (pyCeilLog2 m - 1) := by
    cases hb : pyCeilLog2 m with
    | zero => omega
    | succ b0 =>
      show 2 ^ (b0 + 1) = 2 * 2 ^ (b0 + 1 - 1)
      simp [Nat.pow_succ]
      ring
  exact ⟨hm3, hb2, hlow, hborder, by omega, by omega⟩

/-- Non-power-of-two remainder, low case `r < T`: `b - 1` characters
parsing back to `r`. -/
theorem remainder_npow_lt {n m : Nat} (hm : 1 ≤ m) (hl : m &&& (m - 1) ≠ 0)
    (hr : n % m < 2 ^ pyCeilLog2 m - m) :
    GolombCoding.remainder_code n m = padZeros (pyCeilLog2 m - 1) (natToBin (n % m)) ∧
      (GolombCoding.remainder_code n m).length = pyCeilLog2 m - 1 ∧
      parseBin (GolombCoding.remainder_code n m) = n % m := by
  obtain ⟨hm3, hb2, hlow, hborder, hT1, hT2⟩ := golomb_npow_facts hm hl
  have heq : GolombCoding.remainder_code n m = padZeros (pyCeilLog2 m - 1) (natToBin (n % m)) := by
    rw [GolombCoding.remainder_code, if_neg hl, if_pos hr]
  refine ⟨heq, ?_, ?_⟩
  · rw [heq, padZeros_length]
    have := natToBin_length_le (n := n % m) (k := pyCeilLog2 m - 1) (by omega) (by omega)
    omega
  · rw [heq, parseBin_padZeros, parseBin_natToBin]

/-- Non-power-of-two remainder, high case `r ≥ T`: `b` characters
parsing back to `r + T`. -/
theorem remainder_npow_ge {n m : Nat} (hm : 1 ≤ m) (hl : m &&& (m - 1) ≠ 0)
    (hr : 2 ^ pyCeilLog2 m - m ≤ n % m) :
    GolombCoding.remainder_code n m
        = padZeros (pyCeilLog2 m) (natToBin (n % m + (2 ^ pyCeilLog2 m - m))) ∧
      (GolombCoding.remainder_code n m).length = pyCeilLog2 m ∧
      parseBin (GolombCoding.remainder_code n m) = n % m + (2 ^ pyCeilLog2 m - m) := by
  obtain ⟨hm3, hb2, hlow, hborder, hT1, hT2⟩ := golomb_npow_facts hm hl
  have hmod : n % m < m := Nat.mod_lt n (by omega)
  have heq : GolombCoding.remainder_code n m
      = padZeros (pyCeilLog2 m) (natToBin (n % m + (2 ^ pyCeilLog2 m - m))) := by
    rw [GolombCoding.remainder_code, if_neg hl, if_neg (by omega)]
  refine ⟨heq, ?_, ?_⟩
  · rw [heq, padZeros_length]
    have := natToBin_length_le (n := n % m + (2 ^ pyCeilLog2 m - m)) (k := pyCeilLog2 m)
      (by omega) (by omega)
    omega
  · rw [heq, parseBin_padZeros, parseBin_natToBin]

/-- Golomb round-trip, the general statement: decoding the codeword of
`n` with the same `m ≥ 1` returns `n`. -/
theorem golomb_decode_encode (n m : Nat) (hm : 1 ≤ m) :
    GolombCoding.decode (GolombCoding.encode n m) m = (n : Int) := by
  rw [golomb_encode_shape, GolombCoding.decode]
  rw [takeWhile_unary]
  simp only [List.length_replicate]
  rw [drop_unary]
  by_cases hpow : m &&& (m - 1) = 0
  · obtain ⟨k, rfl⟩ := land_eq_zero_pow m hm hpow
    rw [if_pos hpow, pyLog2_pow]
    cases Nat.eq_zero_or_pos k with
    | inl hk0 =>
      subst hk0
      simp only [pow_zero]
      rw [remainder_one]
      simp [Nat.div_one]
    | inr hk1 =>
      have hlen : (GolombCoding.remainder_code n (2 ^ k)).length = k :=
        remainder_pow_length n hk1
      rw [List.take_of_length_le (le_of_eq hlen)]
      have hne : GolombCoding.remainder_code n (2 ^ k) ≠ [] := by
        intro h
        rw [h] at hlen
        simp at hlen
        omega
      rw [if_neg hne]
      rw [remainder_pow_eq, parseBin_padZeros, parseBin_natToBin]
      exact_mod_cast Nat.div_add_mod' n (2 ^ k)
  · rw [if_neg hpow]
    obtain ⟨hm3, hb2, hlow, hborder, hT1, hT2⟩ := golomb_npow_facts hm hpow
    have hmod : n % m < m := Nat.mod_lt n (by omega)
    have hdm := Nat.div_add_mod' n m
    by_cases hr : n % m < 2 ^ pyCeilLog2 m - m
    · obtain ⟨heq, hlen, hparse⟩ := remainder_npow_lt hm hpow hr
      have hguard : n / m + 1 + (pyCeilLog2 m - 1)
          ≤ (List.replicate (n / m) '1' ++ '0' :: GolombCoding.remainder_code n m).length := by
        simp [List.length_append, hlen]
        omega
      rw [if_pos hguard]
      rw [List.take_of_length_le (le_of_eq hlen)]
      have hne : GolombCoding.remainder_code n m ≠ [] := by
        intro h
        rw [h] at hlen
        simp at hlen
        omega
      rw [if_neg hne, hparse, if_pos hr]
      exact_mod_cast hdm
    · obtain ⟨heq, hlen, hparse⟩ := @remainder_npow_ge n m hm hpow (by omega)
      have hguard : n / m + 1 + (pyCeilLog2 m - 1)
          ≤ (List.replicate (n / m) '1' ++ '0' :: GolombCoding.remainder_code n m).length := by
        simp [List.length_append, hlen]
        omega
      rw [if_pos hguard]
      have hne : GolombCoding.remainder_code n m ≠ [] := by
        intro h
        rw [h] at hlen
        simp at hlen
        omega
      have htake : (GolombCoding.remainder_code n m).take (pyCeilLog2 m - 1)
          = (GolombCoding.remainder_code n m).dropLast := by
        rw [List.dropLast_eq_take, hlen]
      have hsplit : (GolombCoding.remainder_code n m).dropLast
            ++ [(GolombCoding.remainder_code n m).getLast hne]
          = GolombCoding.remainder_code n m := List.dropLast_append_getLast hne
      have hparse2 : 2 * parseBin ((GolombCoding.remainder_code n m).dropLast)
            + bitVal ((GolombCoding.remainder_code n m).getLast hne)
          = n % m + (2 ^ pyCeilLog2 m - m) := by
        rw [← hparse]
        conv_rhs => rw [← hsplit]
        rw [parseBin_append, parseBin_singleton]
        simp only [List.length_singleton, Nat.pow_one]
        ring
      have hbit := bitVal_lt_two ((GolombCoding.remainder_code n m).getLast hne)
      have hdne : (GolombCoding.remainder_code n m).dropLast ≠ [] := by
        intro h
        have : (GolombCoding.remainder_code n m).dropLast.length = 0 := by rw [h]; rfl
        rw [List.length_dropLast, hlen] at this
        omega
      rw [htake, if_neg hdne]
      have hrtge : ¬ (parseBin ((GolombCoding.remainder_code n m).dropLast)
          < 2 ^ pyCeilLog2 m - m) := by omega
      rw [if_neg hrtge]
      rw [List.take_of_length_le (le_of_eq hlen), if_neg hne, hparse]
      have hsub : ((n % m + (2 ^ pyCeilLog2 m - m) : Nat) : Int)
            - ((2 ^ pyCeilLog2 m - m : Nat) : Int) = ((n % m : Nat) : Int) := by
        push_cast
        ring
      rw [hsub]
      exact_mod_cast hdm

end GolombLemmas

/-- C3.  Golomb round-trip: for every `n ≥ 0` and `m ≥ 1`,
`decode (encode n m) m = n`; concretely `encode 10 4 = "11010"` and
`decode "11010" 4 = 10`. -/
theorem golomb_roundtrip :
    (∀ n m : Nat, 1 ≤ m → GolombCoding.decode (GolombCoding.encode n m) m = (n : Int)) ∧
    GolombCoding.encode 10 4 = ['1','1','0','1','0'] ∧
    GolombCoding.decode ['1','1','0','1','0'] 4 = 10 :=
  ⟨fun n m hm => golomb_decode_encode n m hm, by decide, by decide⟩

/-- Witness for C3 at `n = 10`, `m = 4`. -/
theorem golomb_roundtrip_witness :
    1 ≤ 4 ∧ GolombCoding.decode (GolombCoding.encode 10 4) 4 = (10 : Int) :=
  ⟨by decide, golomb_roundtrip.1 10 4 (by decide)⟩

/-- C8, counterexample.  The claim's length formula fails at `n = 0`,
`m = 1 = 2^0`: Python's `format(0, "00b")` is `"0"`, one character, so
the remainder part is one bit (not `k = 0` bits) and the codeword length
is 2, not `0/1 + 1 + 0 = 1`. -/
theorem golomb_pow_boundary_cex :
    ¬ ((GolombCoding.remainder_code 0 1).length = 0 ∧
      (GolombCoding.encode 0 1).length = 0 / 1 + 1 + 0) := by
  decide

/-- C8, amended.  For `m = 2^k` with `k ≥ 1` the remainder is exactly `k`
bits and the codeword has length `n / m + 1 + k`; for `m = 1` (`k = 0`)
the remainder is the single character `"0"` and the length is `n + 2`;
for non-power-of-two `m`, with `b = ceil(log2 m)` and `T = 2^b - m`, the
remainder is `r` in `b - 1` bits when `r < T` and `r + T` in `b` bits
when `r ≥ T`. -/
theorem golomb_pow_boundary_amended :
    (∀ n k : Nat, 1 ≤ k →
      (GolombCoding.remainder_code n (2 ^ k)).length = k ∧
      (GolombCoding.encode n (2 ^ k)).length = n / 2 ^ k + 1 + k) ∧
    (∀ n : Nat, GolombCoding.remainder_code n 1 = ['0'] ∧
      (GolombCoding.encode n 1).length = n + 2) ∧
    (∀ n m : Nat, 1 ≤ m → m &&& (m - 1) ≠ 0 →
      (n % m < 2 ^ pyCeilLog2 m - m →
        (GolombCoding.remainder_code n m).length = pyCeilLog2 m - 1 ∧
        parseBin (GolombCoding.remainder_code n m) = n % m) ∧
      (2 ^ pyCeilLog2 m - m ≤ n % m →
        (GolombCoding.remainder_code n m).length = pyCeilLog2 m ∧
        parseBin (GolombCoding.remainder_code n m) = n % m + (2 ^ pyCeilLog2 m - m))) := by
  refine ⟨?_, ?_, ?_⟩
  · intro n k hk
    refine ⟨remainder_pow_length n hk, ?_⟩
    rw [golomb_encode_shape]
    simp [remainder_pow_length n hk]
    omega
  · intro n
    refine ⟨remainder_one n, ?_⟩
    rw [golomb_encode_shape, remainder_one]
    simp [Nat.div_one]
  · intro n m hm hl
    constructor
    · intro hr
      obtain ⟨heq, hlen, hparse⟩ := remainder_npow_lt hm hl hr
      exact ⟨hlen, hparse⟩
    · intro hr
      obtain ⟨heq, hlen, hparse⟩ := @remainder_npow_ge n m hm hl hr
      exact ⟨hlen, hparse⟩

/-- Witness for the amended C8 at `n = 10`, `m = 4 = 2^2`. -/
theorem golomb_pow_boundary_amended_witness :
    1 ≤ 2 ∧ (GolombCoding.remainder_code 10 (2 ^ 2)).length = 2 ∧
      (GolombCoding.encode 10 (2 ^ 2)).length = 10 / 2 ^ 2 + 1 + 2 :=
  ⟨by decide, (golomb_pow_boundary_amended.1 10 2 (by decide)).1,
    (golomb_pow_boundary_amended.1 10 2 (by decide)).2⟩

section HuffmanHeapLemmas

open HuffmanCoding

/-- A list with two distinct members has length at least two. -/
theorem two_mem_length {α : Type} {l : List α} {a b : α}
    (ha : a ∈ l) (hb : b ∈ l) (hne : a ≠ b) : 2 ≤ l.length := by
  match l with
  | [] => simp at ha
  | [x] =>
    simp at ha hb
    subst ha
    subst hb
    exact absurd rfl hne
  | x :: y :: t =>
    simp [List.length_cons]

/-- `popMin_go` returns an element of the heap and the rest: the result,
consed on the leftovers, is a permutation of the input. -/
theorem popMin_go_perm : ∀ (xs : List HNode) (m : HNode),
    ((popMin_go m xs).1 :: (popMin_go m xs).2).Perm (m :: xs) := by
  intro xs
  induction xs with
  | nil => intro m; simp [popMin_go]
  | cons x xs ih =>
    intro m
    rw [popMin_go]
    by_cases h : nodeLtB x m = true
    · simp only [if_pos h]
      show ((popMin_go x xs).1 :: m :: (popMin_go x xs).2).Perm (m :: x :: xs)
      exact (List.Perm.swap m (popMin_go x xs).1 (popMin_go x xs).2).trans ((ih x).cons m)
    · simp only [if_neg h]
      show ((popMin_go m xs).1 :: x :: (popMin_go m xs).2).Perm (m :: x :: xs)
      exact ((List.Perm.swap x (popMin_go m xs).1 (popMin_go m xs).2).trans
        ((ih m).cons x)).trans (List.Perm.swap m x xs)

/-- `popMin` splits the heap into one element and the rest. -/
theorem popMin_perm {H : List HNode} {s : HNode} {r : List HNode}
    (h : popMin H = some (s, r)) : (s :: r).Perm H := by
  match H with
  | [] => simp [popMin] at h
  | x :: xs =>
    rw [popMin, Option.some_inj] at h
    have h1 : s = (popMin_go x xs).1 := by rw [h]
    have h2 : r = (popMin_go x xs).2 := by rw [h]
    rw [h1, h2]
    exact popMin_go_perm xs x

/-- The characters of a heap, distributing over cons. -/
theorem heapChars_cons (n : HNode) (H : List HNode) :
    heapChars (n :: H) = n.ps.map Prod.fst ++ heapChars H := by
  simp [heapChars]

/-- The characters of a heap, distributing over a trailing element. -/
theorem heapChars_append_single (H : List HNode) (n : HNode) :
    heapChars (H ++ [n]) = heapChars H ++ n.ps.map Prod.fst := by
  simp [heapChars]

/-- Permuting the heap permutes its characters. -/
theorem heapChars_perm {H H' : List HNode} (h : H.Perm H') :
    (heapChars H).Perm (heapChars H') :=
  ((h.map HNode.ps).flatten).map Prod.fst

/-- The characters of a merged node. -/
theorem mergeNodes_chars (s t : HNode) :
    (mergeNodes s t).ps.map Prod.fst = s.ps.map Prod.fst ++ t.ps.map Prod.fst := by
  simp only [mergeNodes, List.map_append, List.map_map]
  rfl

/-- The heap invariant transfers along permutations. -/
theorem okHeap_perm {H H' : List HNode} (h : H.Perm H') (hk : okHeap H) : okHeap H' := by
  obtain ⟨hnodes, hnd⟩ := hk
  exact ⟨fun n hn => hnodes n (h.mem_iff.mpr hn), ((heapChars_perm h).nodup_iff).mp hnd⟩

/-- Kraft sums add across appends. -/
theorem kraftSum_append (A B : List (Char × List Char)) :
    kraftSum (A ++ B) = kraftSum A + kraftSum B := by
  simp [kraftSum]

/-- Prefixing one bit to every code halves the Kraft sum. -/
theorem kraftSum_half (c : Char) (l : List (Char × List Char)) :
    kraftSum (l.map (fun p => (p.1, c :: p.2))) = kraftSum l / 2 := by
  induction l with
  | nil => simp [kraftSum]
  | cons p t ih =>
    simp only [List.map_cons, kraftSum, List.sum_cons] at *
    rw [ih]
    simp only [List.length_cons, pow_succ]
    ring

/-- A merged node satisfies the node invariant, with every code
non-empty. -/
theorem okNode_merge {s t : HNode} (hs : okNode s) (ht : okNode t) :
    okNode (mergeNodes s t) ∧ ∀ p ∈ (mergeNodes s t).ps, p.2 ≠ [] := by
  obtain ⟨hsne, hspf, hsk, _⟩ := hs
  obtain ⟨htne, htpf, htk, _⟩ := ht
  have hnonempty : ∀ p ∈ (mergeNodes s t).ps, p.2 ≠ [] := by
    intro p hp
    simp only [mergeNodes, List.mem_append, List.mem_map] at hp
    rcases hp with ⟨q, _, hq⟩ | ⟨q, _, hq⟩ <;> rw [← hq] <;> simp
  refine ⟨⟨?_, ?_, ?_, Or.inr hnonempty⟩, hnonempty⟩
  · simp only [mergeNodes]
    intro h
    rcases List.append_eq_nil.mp h with ⟨h1, _⟩
    exact hsne (List.map_eq_nil_iff.mp h1)
  · show List.Pairwise _ _
    simp only [mergeNodes]
    rw [List.pairwise_append]
    refine ⟨?_, ?_, ?_⟩
    · rw [List.pairwise_map]
      refine hspf.imp ?_
      intro p q hpq
      constructor
      · intro hpre
        exact hpq.1 ((List.cons_prefix_cons.mp hpre).2)
      · intro hpre
        exact hpq.2 ((List.cons_prefix_cons.mp hpre).2)
    · rw [List.pairwise_map]
      refine htpf.imp ?_
      intro p q hpq
      constructor
      · intro hpre
        exact hpq.1 ((List.cons_prefix_cons.mp hpre).2)
      · intro hpre
        exact hpq.2 ((List.cons_prefix_cons.mp hpre).2)
    · intro p hp q hq
      simp only [List.mem_map] at hp hq
      obtain ⟨p0, _, hp0⟩ := hp
      obtain ⟨q0, _, hq0⟩ := hq
      rw [← hp0, ← hq0]
      constructor
      · intro hpre
        have := (List.cons_prefix_cons.mp hpre).1
        simp at this
      · intro hpre
        have := (List.cons_prefix_cons.mp hpre).1
        simp at this
  · simp only [mergeNodes] at *
    show kraftSum _ = 1
    rw [kraftSum_append, kraftSum_half, kraftSum_half, hsk, htk]
    norm_num

end HuffmanHeapLemmas

section HuffmanBuildCodes

open HuffmanCoding

/-- `build_codes_go` on a one-element heap returns its pair list. -/
theorem build_codes_go_single (f : Nat) (n : HNode) :
    build_codes_go f [n] = some n.ps := by
  cases f <;> rfl

/-- Invariant of the `build_codes` loop: with sufficient fuel and the
heap invariant, the loop returns a table whose characters are exactly the
heap's characters, is prefix-free, has Kraft sum 1, and is either a
single `(c, "")` entry or has all codes non-empty. -/
theorem build_codes_go_ok : ∀ f H, H.length ≤ f + 1 → H ≠ [] → okHeap H →
    ∃ T, build_codes_go f H = some T ∧
      (T.map Prod.fst).Perm (heapChars H) ∧
      prefFree T ∧ kraftSum T = 1 ∧ T ≠ [] ∧
      ((∃ c, T = [(c, [])]) ∨ ∀ p ∈ T, p.2 ≠ []) := by
  intro f
  induction f with
  | zero =>
    intro H hlen hne hk
    match H with
    | [] => exact absurd rfl hne
    | [n] =>
      obtain ⟨hnps, hnpf, hnk, hnms⟩ := hk.1 n (by simp)
      refine ⟨n.ps, build_codes_go_single 0 n, ?_, hnpf, hnk, hnps, hnms⟩
      rw [heapChars_cons]
      show (n.ps.map Prod.fst).Perm (n.ps.map Prod.fst ++ heapChars [])
      simp [heapChars]
    | a :: b :: t =>
      simp only [List.length_cons] at hlen
      omega
  | succ f ih =>
    intro H hlen hne hk
    match H with
    | [] => exact absurd rfl hne
    | [n] =>
      obtain ⟨hnps, hnpf, hnk, hnms⟩ := hk.1 n (by simp)
      refine ⟨n.ps, build_codes_go_single (f + 1) n, ?_, hnpf, hnk, hnps, hnms⟩
      rw [heapChars_cons]
      show (n.ps.map Prod.fst).Perm (n.ps.map Prod.fst ++ heapChars [])
      simp [heapChars]
    | a :: b :: t =>
      have hperm1 : ((popMin_go a (b :: t)).1 :: (popMin_go a (b :: t)).2).Perm (a :: b :: t) :=
        popMin_go_perm (b :: t) a
      have hlen1 : (popMin_go a (b :: t)).2.length = t.length + 1 := by
        have h := hperm1.length_eq
        simp only [List.length_cons] at h
        omega
      obtain ⟨c, r1', hr1⟩ : ∃ c r1', (popMin_go a (b :: t)).2 = c :: r1' := by
        match hh : (popMin_go a (b :: t)).2 with
        | [] => rw [hh] at hlen1; simp at hlen1
        | c :: r1' => exact ⟨c, r1', rfl⟩
      have hperm2 : ((popMin_go c r1').1 :: (popMin_go c r1').2).Perm (popMin_go a (b :: t)).2 := by
        rw [hr1]
        exact popMin_go_perm r1' c
      have hunfold : build_codes_go (f + 1) (a :: b :: t)
          = build_codes_go f ((popMin_go c r1').2
              ++ [mergeNodes (popMin_go a (b :: t)).1 (popMin_go c r1').1]) := by
        show (match popMin (a :: b :: t) with
          | none => none
          | some (s, r1) =>
            match popMin r1 with
            | none => none
            | some (s2, r2) => build_codes_go f (r2 ++ [mergeNodes s s2])) = _
        rw [show popMin (a :: b :: t)
            = some ((popMin_go a (b :: t)).1, (popMin_go a (b :: t)).2) from rfl]
        show (match popMin (popMin_go a (b :: t)).2 with
          | none => none
          | some (s2, r2)
            => build_codes_go f (r2 ++ [mergeNodes (popMin_go a (b :: t)).1 s2])) = _
        rw [hr1]
        rfl
      have hperm : ((popMin_go a (b :: t)).1 :: (popMin_go c r1').1
          :: (popMin_go c r1').2).Perm (a :: b :: t) :=
        (hperm2.cons (popMin_go a (b :: t)).1).trans hperm1
      obtain ⟨hnodesS, hndS⟩ := okHeap_perm hperm.symm hk
      have hok1 : okNode (popMin_go a (b :: t)).1 := hnodesS _ (by simp)
      have hok2 : okNode (popMin_go c r1').1 := hnodesS _ (by simp)
      obtain ⟨hmok, hmne⟩ := okNode_merge hok1 hok2
      have hpermC : (heapChars ((popMin_go c r1').2
            ++ [mergeNodes (popMin_go a (b :: t)).1 (popMin_go c r1').1])).Perm
          (heapChars ((popMin_go a (b :: t)).1 :: (popMin_go c r1').1
            :: (popMin_go c r1').2)) := by
        rw [heapChars_append_single, mergeNodes_chars, heapChars_cons, heapChars_cons]
        refine List.perm_append_comm.trans ?_
        rw [List.append_assoc]
      have hkH' : okHeap ((popMin_go c r1').2
          ++ [mergeNodes (popMin_go a (b :: t)).1 (popMin_go c r1').1]) := by
        constructor
        · intro n hn
          rcases List.mem_append.mp hn with hn | hn
          · exact hnodesS n (by simp [hn])
          · simp only [List.mem_singleton] at hn
            rw [hn]
            exact hmok
        · exact (hpermC.nodup_iff).mpr hndS
      have hlen2 : (popMin_go c r1').2.length = t.length := by
        have h := hperm2.length_eq
        simp only [List.length_cons] at h
        omega
      have hlenH' : ((popMin_go c r1').2
          ++ [mergeNodes (popMin_go a (b :: t)).1 (popMin_go c r1').1]).length ≤ f + 1 := by
        simp only [List.length_append, List.length_singleton, hlen2]
        simp only [List.length_cons] at hlen
        omega
      have hneH' : (popMin_go c r1').2
          ++ [mergeNodes (popMin_go a (b :: t)).1 (popMin_go c r1').1] ≠ [] := by
        simp
      obtain ⟨T, hT, hTchars, hTpf, hTk, hTne, hTms⟩ := ih _ hlenH' hneH' hkH'
      refine ⟨T, ?_, ?_, hTpf, hTk, hTne, hTms⟩
      · rw [hunfold]
        exact hT
      · exact (hTchars.trans hpermC).trans (heapChars_perm hperm)

end HuffmanBuildCodes

section HuffmanFrequency

open HuffmanCoding

/-- Keys after one `bump`: unchanged for a seen character, appended for a
new one. -/
theorem bump_keys (l : List (Char × Nat)) (c : Char) :
    (build_frequency.bump l c).map Prod.fst
      = if c ∈ l.map Prod.fst then l.map Prod.fst else l.map Prod.fst ++ [c] := by
  induction l with
  | nil => simp [build_frequency.bump]
  | cons p t ih =>
    rw [build_frequency.bump]
    by_cases h : p.1 = c
    · simp [h]
    · have hmem : (c ∈ (p :: t).map Prod.fst) ↔ (c ∈ t.map Prod.fst) := by
        simp [List.mem_cons]
        intro hc
        exact absurd hc.symm h
      by_cases ht : c ∈ t.map Prod.fst
      · simp only [if_neg h, List.map_cons, ih, if_pos ht]
        rw [if_pos (List.mem_cons_of_mem p.1 ht)]
      · simp only [if_neg h, List.map_cons, ih, if_neg ht]
        have hnc : c ∉ p.1 :: t.map Prod.fst := by
          intro hc
          rcases List.mem_cons.mp hc with hc | hc
          · exact h hc.symm
          · exact ht hc
        rw [if_neg hnc]
        rfl

/-- Membership in the keys after one `bump`. -/
theorem bump_keys_mem (l : List (Char × Nat)) (c x : Char) :
    x ∈ (build_frequency.bump l c).map Prod.fst ↔ x ∈ l.map Prod.fst ∨ x = c := by
  rw [bump_keys]
  by_cases h : c ∈ l.map Prod.fst
  · rw [if_pos h]
    constructor
    · exact Or.inl
    · rintro (hx | rfl)
      · exact hx
      · exact h
  · rw [if_neg h]
    simp [List.mem_append]

/-- `bump` keeps the keys duplicate-free. -/
theorem bump_keys_nodup {l : List (Char × Nat)} (c : Char)
    (h : (l.map Prod.fst).Nodup) : ((build_frequency.bump l c).map Prod.fst).Nodup := by
  rw [bump_keys]
  by_cases hc : c ∈ l.map Prod.fst
  · rwa [if_pos hc]
  · rw [if_neg hc]
    simp [List.nodup_append, h, hc]

/-- Keys of the running fold are duplicate-free. -/
theorem foldl_bump_nodup : ∀ (text : List Char) (l : List (Char × Nat)),
    (l.map Prod.fst).Nodup → ((text.foldl build_frequency.bump l).map Prod.fst).Nodup := by
  intro text
  induction text with
  | nil => intro l h; exact h
  | cons c rest ih => intro l h; exact ih _ (bump_keys_nodup c h)

/-- Membership in the keys of the running fold. -/
theorem foldl_bump_mem : ∀ (text : List Char) (l : List (Char × Nat)) (x : Char),
    x ∈ (text.foldl build_frequency.bump l).map Prod.fst ↔ x ∈ l.map Prod.fst ∨ x ∈ text := by
  intro text
  induction text with
  | nil => intro l x; simp
  | cons c rest ih =>
    intro l x
    show x ∈ ((rest.foldl _ (build_frequency.bump l c)).map Prod.fst) ↔ _
    rw [ih, bump_keys_mem]
    simp [List.mem_cons]
    tauto

/-- The frequency table's keys are duplicate-free. -/
theorem build_frequency_nodup (text : List Char) :
    ((build_frequency text).map Prod.fst).Nodup :=
  foldl_bump_nodup text [] (by simp)

/-- The frequency table's keys are exactly the characters of the text. -/
theorem build_frequency_mem (text : List Char) (x : Char) :
    x ∈ (build_frequency text).map Prod.fst ↔ x ∈ text := by
  rw [build_frequency, foldl_bump_mem]
  simp

/-- The characters of the fresh heap are the frequency keys. -/
theorem heapChars_build_heap (freq : List (Char × Nat)) :
    heapChars (build_heap freq) = freq.map Prod.fst := by
  induction freq with
  | nil => rfl
  | cons p t ih =>
    show heapChars (⟨p.2, [(p.1, [])]⟩ :: build_heap t) = _
    rw [heapChars_cons, ih]
    simp

/-- The fresh heap satisfies the heap invariant. -/
theorem okHeap_build_heap {freq : List (Char × Nat)}
    (h : (freq.map Prod.fst).Nodup) : okHeap (build_heap freq) := by
  constructor
  · intro n hn
    simp only [build_heap, List.mem_map] at hn
    obtain ⟨p, _, hp⟩ := hn
    rw [← hp]
    refine ⟨by simp, ?_, by simp [kraftSum], Or.inl ⟨p.1, rfl⟩⟩
    show List.Pairwise _ _
    simp
  · rwa [heapChars_build_heap]

/-- A non-empty text yields a non-empty heap. -/
theorem build_heap_ne_nil {text : List Char} (h : text ≠ []) :
    build_heap (build_frequency text) ≠ [] := by
  match htext : text with
  | [] => exact absurd rfl h
  | c :: rest =>
    intro hnil
    have hc : c ∈ (build_frequency (c :: rest)).map Prod.fst :=
      (build_frequency_mem _ c).mpr (by simp)
    rw [build_heap] at hnil
    rw [List.map_eq_nil_iff.mp hnil] at hc
    simp at hc

end HuffmanFrequency

/-- C4.  Prefix-free law: for every non-empty input, `build_codes` on the
heap of the input's frequency table succeeds and yields a code table in
which no entry's code is a prefix of another entry's code, with Kraft sum
`2^(-length)` summed over the codes at most 1 (here in fact exactly 1;
for a single-symbol alphabet the sole code is the empty string, which is
vacuously prefix-free and has Kraft sum 1). -/
theorem huffman_prefree_kraft :
    ∀ text : List Char, text ≠ [] →
      ∃ T, HuffmanCoding.build_codes
          (HuffmanCoding.build_heap (HuffmanCoding.build_frequency text)) = some T ∧
        HuffmanCoding.prefFree T ∧ HuffmanCoding.kraftSum T ≤ 1 := by
  intro text hne
  obtain ⟨T, hT, _, hpf, hk, _, _⟩ :=
    build_codes_go_ok (HuffmanCoding.build_heap (HuffmanCoding.build_frequency text)).length
      (HuffmanCoding.build_heap (HuffmanCoding.build_frequency text))
      (Nat.le_succ _) (build_heap_ne_nil hne)
      (okHeap_build_heap (build_frequency_nodup text))
  exact ⟨T, hT, hpf, le_of_eq hk⟩

/-- Witness for C4 at the one-character input `"z"`. -/
theorem huffman_prefree_kraft_witness :
    (['z'] : List Char) ≠ [] ∧
      ∃ T, HuffmanCoding.build_codes
          (HuffmanCoding.build_heap (HuffmanCoding.build_frequency ['z'])) = some T ∧
        HuffmanCoding.prefFree T ∧ HuffmanCoding.kraftSum T ≤ 1 :=
  ⟨by decide, huffman_prefree_kraft ['z'] (by decide)⟩

section HuffmanDecode

open HuffmanCoding

/-- A successful `pyGet` exhibits its entry. -/
theorem pyGet_mem {α β : Type} [DecidableEq α] {d : List (α × β)} {k : α} {v : β}
    (h : pyGet d k = some v) : (k, v) ∈ d := by
  rw [pyGet] at h
  cases hf : d.find? (fun p => p.1 = k) with
  | none => rw [hf] at h; simp at h
  | some q =>
    rw [hf] at h
    have hv : q.2 = v := Option.some_inj.mp h
    have hq : q ∈ d := List.mem_of_find?_eq_some hf
    have hqk : q.1 = k := by
      have := List.find?_some hf
      simpa using this
    rw [← hv, ← hqk]
    exact hq

/-- `pyGet` succeeds exactly on the keys. -/
theorem pyGet_isSome_iff {α β : Type} [DecidableEq α] (d : List (α × β)) (k : α) :
    (pyGet d k).isSome ↔ k ∈ d.map Prod.fst := by
  constructor
  · intro h
    obtain ⟨v, hv⟩ := Option.isSome_iff_exists.mp h
    exact List.mem_map.mpr ⟨(k, v), pyGet_mem hv, rfl⟩
  · intro h
    obtain ⟨p, hp, hpk⟩ := List.mem_map.mp h
    have hsome : (d.find? (fun p => p.1 = k)).isSome := by
      rw [List.find?_isSome]
      exact ⟨p, hp, by simp [hpk]⟩
    obtain ⟨q, hq⟩ := Option.isSome_iff_exists.mp hsome
    rw [pyGet, hq]
    rfl

/-- A successful reverse lookup exhibits its entry. -/
theorem revGet_mem {T : List (Char × List Char)} {s : List Char} {c : Char}
    (h : revGet T s = some c) : (c, s) ∈ T := by
  rw [revGet] at h
  cases hf : T.reverse.find? (fun p => p.2 = s) with
  | none => rw [hf] at h; simp at h
  | some q =>
    rw [hf] at h
    have hc : q.1 = c := Option.some_inj.mp h
    have hq : q ∈ T := List.mem_reverse.mp (List.mem_of_find?_eq_some hf)
    have hqs : q.2 = s := by
      have := List.find?_some hf
      simpa using this
    rw [← hc, ← hqs]
    exact hq

/-- The prefix-free relation on table entries is symmetric. -/
theorem prefFree_symm :
    Symmetric (fun p q : Char × List Char => ¬ (p.2 <+: q.2) ∧ ¬ (q.2 <+: p.2)) :=
  fun _ _ h => ⟨h.2, h.1⟩

/-- In a prefix-free table the entry of a code is unique, so the reverse
lookup of a member's code returns its character. -/
theorem revGet_eq_of_mem {T : List (Char × List Char)} {c : Char} {s : List Char}
    (hpf : prefFree T) (hmem : (c, s) ∈ T) : revGet T s = some c := by
  have hsome : (T.reverse.find? (fun p => p.2 = s)).isSome := by
    rw [List.find?_isSome]
    exact ⟨(c, s), List.mem_reverse.mpr hmem, by simp⟩
  obtain ⟨q, hq⟩ := Option.isSome_iff_exists.mp hsome
  have hqs : q.2 = s := by
    have := List.find?_some hq
    simpa using this
  have hqmem : q ∈ T := List.mem_reverse.mp (List.mem_of_find?_eq_some hq)
  have hqc : q = (c, s) := by
    by_contra hne
    have hP := List.Pairwise.forall prefFree_symm hpf hqmem hmem hne
    exact hP.1 (by rw [hqs])
  rw [revGet, hq, hqc]
  rfl

/-- In a prefix-free table no proper prefix of a member's code matches
the reverse lookup. -/
theorem revGet_none_of_proper {T : List (Char × List Char)} {c : Char} {s q : List Char}
    (hpf : prefFree T) (hmem : (c, s) ∈ T) (hq : q <+: s) (hne : q ≠ s) :
    revGet T q = none := by
  cases hr : revGet T q with
  | none => rfl
  | some c2 =>
    exfalso
    have hmem2 : (c2, q) ∈ T := revGet_mem hr
    by_cases heq : (c2, q) = (c, s)
    · exact hne (congrArg Prod.snd heq)
    · have hP := List.Pairwise.forall prefFree_symm hpf hmem2 hmem heq
      exact hP.1 hq

/-- Walking the decoder over one member code (after any already-consumed
prefix of it) emits exactly its character and proceeds. -/
theorem decode_go_code {T : List (Char × List Char)} {c : Char} {s : List Char}
    (hpf : prefFree T) (hmem : (c, s) ∈ T) :
    ∀ (s2 p rest : List Char), s = p ++ s2 → s2 ≠ [] →
      decode_go T (s2 ++ rest) p = c :: decode_go T rest [] := by
  intro s2
  induction s2 with
  | nil => intro p rest _ hne; exact absurd rfl hne
  | cons b s2 ih =>
    intro p rest hs _
    show decode_go T (b :: (s2 ++ rest)) p = _
    rw [decode_go]
    cases s2 with
    | nil =>
      rw [show p ++ [b] = s from hs.symm, revGet_eq_of_mem hpf hmem]
      simp
    | cons d s3 =>
      have hpre : (p ++ [b]) <+: s := ⟨d :: s3, by rw [hs]; simp⟩
      have hne2 : p ++ [b] ≠ s := by
        intro h
        have h1 := congrArg List.length h
        rw [hs] at h1
        simp at h1
      rw [revGet_none_of_proper hpf hmem hpre hne2]
      exact ih (p ++ [b]) rest (by rw [hs]; simp) (by simp)

/-- The decoder inverts the encoder on the concatenated codes of a text,
given a prefix-free table with non-empty codes. -/
theorem decode_encode_list {T : List (Char × List Char)}
    (hpf : prefFree T) (hcodes : ∀ p ∈ T, p.2 ≠ []) :
    ∀ (text enc : List Char), huffman_encode text T = some enc →
      decode_go T enc [] = text := by
  intro text
  induction text with
  | nil =>
    intro enc h
    rw [huffman_encode] at h
    rw [← Option.some_inj.mp h]
    rfl
  | cons ch rest ih =>
    intro enc h
    rw [huffman_encode] at h
    cases hg : pyGet T ch with
    | none => rw [hg] at h; simp at h
    | some s =>
      cases he : huffman_encode rest T with
      | none => rw [hg, he] at h; simp at h
      | some t2 =>
        rw [hg, he, Option.some_inj] at h
        have hmem : (ch, s) ∈ T := pyGet_mem hg
        have hsne : s ≠ [] := hcodes (ch, s) hmem
        rw [← h, decode_go_code hpf hmem s [] t2 rfl hsne, ih t2 he]

/-- The encoder succeeds when every character of the text has a code. -/
theorem encode_total {T : List (Char × List Char)} :
    ∀ text : List Char, (∀ ch ∈ text, ch ∈ T.map Prod.fst) →
      ∃ enc, huffman_encode text T = some enc := by
  intro text
  induction text with
  | nil => intro _; exact ⟨[], rfl⟩
  | cons ch rest ih =>
    intro h
    have hch : (pyGet T ch).isSome := (pyGet_isSome_iff T ch).mpr (h ch (by simp))
    obtain ⟨s, hs⟩ := Option.isSome_iff_exists.mp hch
    obtain ⟨enc2, henc2⟩ := ih (fun x hx => h x (by simp [hx]))
    refine ⟨s ++ enc2, ?_⟩
    rw [huffman_encode, hs, henc2]

end HuffmanDecode

/-- C1, counterexample.  On the input `"aa"` (one distinct symbol),
`compress` succeeds and produces the code table `{'a': ""}` with encoded
bit-string `""`; decoding that bit-string with that table returns `""`,
not `"aa"`. -/
theorem huffman_roundtrip_cex :
    HuffmanCoding.compress ['a', 'a'] = some ([], [('a', [])], [('a', 2)]) ∧
    HuffmanCoding.decode [] [('a', [])] = [] ∧ ([] : List Char) ≠ ['a', 'a'] := by
  decide

/-- C1, amended.  Huffman round-trip holds for every input with at least
two distinct characters: `compress` succeeds, and decoding its bit-string
with its code table returns the input exactly.  (On a one-distinct-symbol
input the code table maps that symbol to the empty code and decode
returns the empty string, as the counterexample shows.) -/
theorem huffman_roundtrip_two_distinct :
    ∀ (text : List Char) (a b : Char), a ∈ text → b ∈ text → a ≠ b →
      ∃ enc T freq, HuffmanCoding.compress text = some (enc, T, freq) ∧
        HuffmanCoding.decode enc T = text := by
  intro text a b ha hb hab
  have hne : text ≠ [] := by
    intro h
    rw [h] at ha
    simp at ha
  obtain ⟨T, hT, hchars, hpf, _, _, hms⟩ :=
    build_codes_go_ok (HuffmanCoding.build_heap (HuffmanCoding.build_frequency text)).length
      (HuffmanCoding.build_heap (HuffmanCoding.build_frequency text))
      (Nat.le_succ _) (build_heap_ne_nil hne)
      (okHeap_build_heap (build_frequency_nodup text))
  have hbc : HuffmanCoding.build_codes
      (HuffmanCoding.build_heap (HuffmanCoding.build_frequency text)) = some T := hT
  have hTk : (T.map Prod.fst).Perm ((HuffmanCoding.build_frequency text).map Prod.fst) := by
    rw [← heapChars_build_heap]
    exact hchars
  have hcodes : ∀ p ∈ T, p.2 ≠ [] := by
    rcases hms with ⟨c, hc⟩ | h
    · exfalso
      have hlen2 : 2 ≤ ((HuffmanCoding.build_frequency text).map Prod.fst).length :=
        two_mem_length ((build_frequency_mem text a).mpr ha)
          ((build_frequency_mem text b).mpr hb) hab
      have hlen1 := hTk.length_eq
      rw [hc] at hlen1
      simp only [List.length_map, List.length_singleton] at hlen1 hlen2
      omega
    · exact h
  have hmemT : ∀ ch ∈ text, ch ∈ T.map Prod.fst := fun ch hch =>
    hTk.mem_iff.mpr ((build_frequency_mem text ch).mpr hch)
  obtain ⟨enc, henc⟩ := encode_total text hmemT
  refine ⟨enc, T, HuffmanCoding.build_frequency text, ?_, ?_⟩
  · rw [HuffmanCoding.compress, hbc]
    show (match HuffmanCoding.huffman_encode text T with
      | none => none
      | some encoded => some (encoded, T, HuffmanCoding.build_frequency text)) = _
    rw [henc]
  · exact decode_encode_list hpf hcodes text enc henc

/-- Witness for the amended C1 at the input `"abb"`. -/
theorem huffman_roundtrip_two_distinct_witness :
    ('a' ∈ (['a', 'b', 'b'] : List Char) ∧ 'b' ∈ (['a', 'b', 'b'] : List Char) ∧
      ('a' : Char) ≠ 'b') ∧
    ∃ enc T freq, HuffmanCoding.compress ['a', 'b', 'b'] = some (enc, T, freq) ∧
      HuffmanCoding.decode enc T = ['a', 'b', 'b'] :=
  ⟨⟨by decide, by decide, by decide⟩,
    huffman_roundtrip_two_distinct ['a', 'b', 'b'] 'a' 'b' (by decide) (by decide) (by decide)⟩

/-- C5.  Degenerate single-symbol behaviour of the code as written: on
`"aaaa"` the produced code table assigns `'a'` the empty code `""` (not
`"0"`), the encoded string is `""` (not `"0000"`), and decode returns
`""` (not `"aaaa"`) — the claimed behaviour is the spec's stated intent
and the code deviates from it. -/
theorem huffman_degenerate_behavior :
    HuffmanCoding.compress ['a', 'a', 'a', 'a'] = some ([], [('a', [])], [('a', 4)]) ∧
    HuffmanCoding.decode [] [('a', [])] = [] ∧
    ([('a', [])] : List (Char × List Char)) ≠ [('a', ['0'])] ∧
    ([] : List Char) ≠ ['0', '0', '0', '0'] ∧ ([] : List Char) ≠ ['a', 'a', 'a', 'a'] := by
  decide

section HuffmanTiebreak

open HuffmanCoding

/-- `pyGet` walks past a non-matching head entry. -/
theorem pyGet_cons_ne {α β : Type} [DecidableEq α] (x : α × β) (d : List (α × β)) (k : α)
    (h : ¬ x.1 = k) : pyGet (x :: d) k = pyGet d k := by
  rw [pyGet, pyGet, List.find?_cons_of_neg _ (by simp [h])]

/-- `pyGet` finds a matching head entry. -/
theorem pyGet_cons_self {α β : Type} [DecidableEq α] (k : α) (v : β) (d : List (α × β)) :
    pyGet ((k, v) :: d) k = some v := by
  rw [pyGet, List.find?_cons_of_pos _ (by simp)]
  rfl

/-- Python pair comparison: smaller character wins. -/
theorem pairLtB_lt {a b : Char} (h : a < b) (s t : List Char) :
    pairLtB (a, s) (b, t) = true := by
  rw [pairLtB, if_pos h]

/-- Python heap-element comparison on two equal-weight singleton nodes:
the node with the smaller character is the smaller element. -/
theorem nodeLtB_tie {a b : Char} (h : a < b) :
    nodeLtB ⟨1, [(a, [])]⟩ ⟨1, [(b, [])]⟩ = true := by
  rw [nodeLtB, if_neg (lt_irrefl 1), if_neg (lt_irrefl 1), pairsLtB,
    if_pos (pairLtB_lt h [] [])]

end HuffmanTiebreak

/-- C7, counterexample.  In the input `"ba"` the symbol `'b'` is first
seen and both symbols have weight 1, yet the produced table assigns
`'b'` the code `"1"` and `'a'` the code `"0"`: the first-seen symbol is
not extracted first and does not receive bit 0, refuting
insertion-order tie-breaking (`heapq` compares the list payloads, so the
smaller character value wins). -/
theorem huffman_tiebreak_cex :
    HuffmanCoding.build_frequency ['b', 'a'] = [('b', 1), ('a', 1)] ∧
    HuffmanCoding.compress ['b', 'a']
      = some (['1', '0'], [('a', ['0']), ('b', ['1'])], [('b', 1), ('a', 1)]) := by
  decide

/-- C7, amended.  When two symbols have equal weight the tie is broken by
Python's list comparison of the heap elements — the symbol with the
smaller code point becomes the smaller node and receives bit 0 — so the
code table depends on the symbol values, not on first-seen order: for any
`a < b`, the input `[b, a]` (in which `b` is first seen) produces the
table `{a: "0", b: "1"}`. -/
theorem huffman_tiebreak_amended :
    ∀ a b : Char, a < b →
      HuffmanCoding.compress [b, a]
        = some (['1', '0'], [(a, ['0']), (b, ['1'])], [(b, 1), (a, 1)]) := by
  intro a b hab
  have hne : ¬ b = a := fun h => absurd (h ▸ hab) (lt_irrefl a)
  have hne2 : ¬ a = b := fun h => hne h.symm
  have hfreq : HuffmanCoding.build_frequency [b, a] = [(b, 1), (a, 1)] := by
    show HuffmanCoding.build_frequency.bump
        (HuffmanCoding.build_frequency.bump [] b) a = _
    rw [HuffmanCoding.build_frequency.bump]
    show HuffmanCoding.build_frequency.bump [(b, 1)] a = _
    rw [HuffmanCoding.build_frequency.bump, if_neg hne]
    rfl
  have hpop1 : HuffmanCoding.popMin_go ⟨1, [(b, [])]⟩ [⟨1, [(a, [])]⟩]
      = (⟨1, [(a, [])]⟩, [⟨1, [(b, [])]⟩]) := by
    rw [HuffmanCoding.popMin_go, if_pos (nodeLtB_tie hab)]
    rfl
  have hbc : HuffmanCoding.build_codes
        (HuffmanCoding.build_heap (HuffmanCoding.build_frequency [b, a]))
      = some [(a, ['0']), (b, ['1'])] := by
    rw [hfreq]
    show HuffmanCoding.build_codes_go 2 [⟨1, [(b, [])]⟩, ⟨1, [(a, [])]⟩] = _
    show (match HuffmanCoding.popMin [⟨1, [(b, [])]⟩, ⟨1, [(a, [])]⟩] with
      | none => none
      | some (s, r1) =>
        match HuffmanCoding.popMin r1 with
        | none => none
        | some (s2, r2) => HuffmanCoding.build_codes_go 1
            (r2 ++ [HuffmanCoding.mergeNodes s s2])) = _
    rw [show HuffmanCoding.popMin [⟨1, [(b, [])]⟩, ⟨1, [(a, [])]⟩]
        = some (⟨1, [(a, [])]⟩, [⟨1, [(b, [])]⟩]) from by rw [HuffmanCoding.popMin, hpop1]]
    show (match HuffmanCoding.popMin [⟨1, [(b, [])]⟩] with
      | none => none
      | some (s2, r2) => HuffmanCoding.build_codes_go 1
          (r2 ++ [HuffmanCoding.mergeNodes ⟨1, [(a, [])]⟩ s2])) = _
    rw [show HuffmanCoding.popMin [(⟨1, [(b, [])]⟩ : HuffmanCoding.HNode)]
        = some (⟨1, [(b, [])]⟩, []) from rfl]
    rfl
  have hga : pyGet [(a, ['0']), (b, ['1'])] a = some ['0'] := pyGet_cons_self a ['0'] _
  have hgb : pyGet [(a, ['0']), (b, ['1'])] b = some ['1'] := by
    rw [pyGet_cons_ne (a, ['0']) _ b hne2]
    exact pyGet_cons_self b ['1'] _
  have henc : HuffmanCoding.huffman_encode [b, a] [(a, ['0']), (b, ['1'])]
      = some ['1', '0'] := by
    rw [HuffmanCoding.huffman_encode, hgb, HuffmanCoding.huffman_encode, hga,
      HuffmanCoding.huffman_encode]
    rfl
  rw [HuffmanCoding.compress, hbc]
  show (match HuffmanCoding.huffman_encode [b, a] [(a, ['0']), (b, ['1'])] with
    | none => none
    | some encoded => some (encoded, [(a, ['0']), (b, ['1'])],
        HuffmanCoding.build_frequency [b, a])) = _
  rw [henc, hfreq]

/-- Witness for the amended C7 at `a = 'a'`, `b = 'b'`. -/
theorem huffman_tiebreak_amended_witness :
    ('a' : Char) < 'b' ∧
      HuffmanCoding.compress ['b', 'a']
        = some (['1', '0'], [('a', ['0']), ('b', ['1'])], [('b', 1), ('a', 1)]) :=
  ⟨by decide, huffman_tiebreak_amended 'a' 'b' (by decide)⟩

section HuffmanTruncated

open HuffmanCoding

/-- The decode loop distributes over an append, threading the candidate
accumulator. -/
theorem decode_go_append (T : List (Char × List Char)) :
    ∀ (x y cand : List Char),
      decode_go T (x ++ y) cand
        = decode_go T x cand ++ decode_go T y (decode_leftover T x cand) := by
  intro x
  induction x with
  | nil => intro y cand; rfl
  | cons b x ih =>
    intro y cand
    show decode_go T (b :: (x ++ y)) cand = _
    rw [decode_go, decode_leftover]
    cases hr : revGet T (cand ++ [b]) with
    | some ch =>
      rw [decode_go]
      cases hr2 : revGet T (cand ++ [b]) with
      | some ch2 => rw [hr] at hr2; rw [Option.some_inj.mp hr2, ih]; rfl
      | none => rw [hr] at hr2; exact absurd hr2 (by simp)
    | none =>
      rw [decode_go]
      cases hr2 : revGet T (cand ++ [b]) with
      | some ch2 => rw [hr] at hr2; exact absurd hr2 (by simp)
      | none => exact ih y (cand ++ [b])

/-- If no candidate ever matches while scanning `s` (starting from the
consumed bits `pre`), the decode loop emits nothing. -/
theorem decode_go_unmatched (T : List (Char × List Char)) :
    ∀ (s pre : List Char),
      (∀ q : List Char, q ≠ [] → q <+: (pre ++ s) → revGet T q = none) →
      decode_go T s pre = [] := by
  intro s
  induction s with
  | nil => intro pre _; rfl
  | cons b s ih =>
    intro pre h
    rw [decode_go]
    have hb : revGet T (pre ++ [b]) = none := by
      refine h (pre ++ [b]) (by simp) ⟨s, ?_⟩
      simp
    rw [hb]
    refine ih (pre ++ [b]) ?_
    intro q hq hpre
    refine h q hq ?_
    rwa [List.append_assoc] at hpre
  

end HuffmanTruncated

/-- C9, counterexample.  Decoding `"01"` with the table
`{'a': "0", 'b': "11"}` leaves the non-empty unmatched candidate `"1"`,
yet the source `decode` has no failure path: it returns the partially
decoded text `"a"`, silently dropping the candidate, rather than failing
with `InvalidEncoding`. -/
theorem huffman_truncated_cex :
    HuffmanCoding.decode_leftover [('a', ['0']), ('b', ['1', '1'])] ['0', '1'] [] = ['1'] ∧
    HuffmanCoding.decode ['0', '1'] [('a', ['0']), ('b', ['1', '1'])] = ['a'] := by
  decide

/-- C9, amended.  `decode` never raises: if the input splits as a cleanly
decoded part followed by a tail whose candidates never match, the result
is the decode of the clean part — the trailing unmatched candidate is
silently discarded. -/
theorem huffman_truncated_amended :
    ∀ (T : List (Char × List Char)) (bits suffix : List Char),
      HuffmanCoding.decode_leftover T bits [] = [] →
      (∀ q : List Char, q ≠ [] → q <+: suffix → HuffmanCoding.revGet T q = none) →
      HuffmanCoding.decode (bits ++ suffix) T = HuffmanCoding.decode bits T := by
  intro T bits suffix hclean hnm
  rw [HuffmanCoding.decode, HuffmanCoding.decode, decode_go_append, hclean,
    decode_go_unmatched T suffix [] (by simpa using hnm), List.append_nil]

/-- Witness for the amended C9: table `{'a': "0"}`, clean bits `"0"`,
dangling suffix `"1"`. -/
theorem huffman_truncated_amended_witness :
    (HuffmanCoding.decode_leftover [('a', ['0'])] ['0'] [] = [] ∧
      HuffmanCoding.decode (['0'] ++ ['1']) [('a', ['0'])]
        = HuffmanCoding.decode ['0'] [('a', ['0'])]) := by
  have hnm : ∀ q : List Char, q ≠ [] → q <+: ['1'] →
      HuffmanCoding.revGet [('a', ['0'])] q = none := by
    intro q hq hpre
    obtain ⟨t, ht⟩ := hpre
    cases q with
    | nil => exact absurd rfl hq
    | cons c q2 =>
      cases q2 with
      | nil =>
        simp at ht
        rw [ht.1]
        decide
      | cons d q3 => simp at ht
  exact ⟨by decide, huffman_truncated_amended [('a', ['0'])] ['0'] ['1'] (by decide) hnm⟩

set_option maxRecDepth 4000 in
/-- C6.  Empty-input behaviour of the four codecs: run-length encode and
decode, Golomb `compress` on the empty list (any parameter), and LZW
encode/decode all return empty output without failing; Huffman
`compress` on `""`, however, evaluates `heap[0]` on an empty heap — an
`IndexError`, modelled as `none` — instead of returning empty output. -/
theorem empty_input_behavior :
    RunLengthEncoding.encode [] = [] ∧
    RunLengthEncoding.decode [] = some [] ∧
    (∀ m : Nat, GolombCoding.compress [] m = []) ∧
    LZWCoding.encode [] = some ([], LZWCoding.initDict) ∧
    LZWCoding.decode [] 256 = some [] ∧
    HuffmanCoding.compress [] = none := by
  exact ⟨rfl, rfl, fun m => rfl, by decide, rfl, rfl⟩

/-- Witness for C6, instantiating the Golomb conjunct at `m = 7`. -/
theorem empty_input_behavior_witness : GolombCoding.compress [] 7 = [] :=
  empty_input_behavior.2.2.1 7

section LZWLookup

open LZWCoding

/-- `toNat` undoes `Char.ofNat` on byte values. -/
theorem char_toNat_ofNat {i : Nat} (h : i < 256) : (Char.ofNat i).toNat = i := by
  have hv : i.isValidChar := Or.inl (by omega)
  rw [Char.ofNat, dif_pos hv]
  rfl

/-- `Char.ofNat` is injective on byte values. -/
theorem char_ofNat_inj {i j : Nat} (hi : i < 256) (hj : j < 256)
    (h : Char.ofNat i = Char.ofNat j) : i = j := by
  have := congrArg Char.toNat h
  rwa [char_toNat_ofNat hi, char_toNat_ofNat hj] at this

/-- `pyGet` finds (the unique) entry of a present key when keys are
duplicate-free. -/
theorem pyGet_eq_of_mem_of_nodup {α β : Type} [DecidableEq α] {d : List (α × β)} {k : α} {v : β}
    (hnd : (d.map Prod.fst).Nodup) (hmem : (k, v) ∈ d) : pyGet d k = some v := by
  induction d with
  | nil => simp at hmem
  | cons x d ih =>
    rw [List.map_cons, List.nodup_cons] at hnd
    by_cases hx : x.1 = k
    · rcases List.mem_cons.mp hmem with hh | hh
      · rw [← hh, pyGet, List.find?_cons_of_pos _ (by simp)]
        rfl
      · exfalso
        refine hnd.1 ?_
        rw [hx]
        exact List.mem_map.mpr ⟨(k, v), hh, rfl⟩
    · rcases List.mem_cons.mp hmem with hh | hh
      · exfalso
        rw [← hh] at hx
        exact hx rfl
      · rw [pyGet_cons_ne x d k hx]
        exact ih hnd.2 hh

/-- `pyGet ((k, v) :: d) k`, for an arbitrary pair. -/
theorem pyGet_cons_eq {α β : Type} [DecidableEq α] {x : α × β} (d : List (α × β)) {k : α}
    (h : x.1 = k) : pyGet (x :: d) k = some x.2 := by
  rw [pyGet, List.find?_cons_of_pos _ (by simp [h])]
  rfl

/-- The initial LZW dictionary has duplicate-free keys. -/
theorem initDict_keys_nodup : (initDict.map Prod.fst).Nodup := by
  rw [initDict, List.map_map]
  refine List.Nodup.map_on ?_ (List.nodup_range 256)
  intro i hi j hj hij
  simp only [Function.comp] at hij
  have hc : Char.ofNat i = Char.ofNat j := by injection hij
  exact char_ofNat_inj (List.mem_range.mp hi) (List.mem_range.mp hj) hc

/-- Looking up a byte character in the initial encoder dictionary. -/
theorem pyGet_initDict_char {c : Char} (hc : c.toNat < 256) :
    pyGet initDict [c] = some c.toNat := by
  refine pyGet_eq_of_mem_of_nodup initDict_keys_nodup ?_
  rw [initDict]
  refine List.mem_map.mpr ⟨c.toNat, List.mem_range.mpr hc, ?_⟩
  rw [Char.ofNat_toNat]

/-- A hit in the initial encoder dictionary is a byte singleton. -/
theorem pyGet_initDict_some {s : List Char} {e : Nat}
    (h : pyGet initDict s = some e) : e < 256 ∧ s = [Char.ofNat e] := by
  have hmem := pyGet_mem h
  rw [initDict] at hmem
  obtain ⟨i, hi, hpair⟩ := List.mem_map.mp hmem
  have h1 : [Char.ofNat i] = s := congrArg Prod.fst hpair
  have h2 : i = e := congrArg Prod.snd hpair
  subst h2
  exact ⟨List.mem_range.mp hi, h1.symm⟩

/-- Looking up a byte code in the initial decoder dictionary. -/
theorem pyGet_decInit_lt {code : Nat} (h : code < 256) :
    pyGet (decInitDict 256) code = some [Char.ofNat code] := by
  refine pyGet_eq_of_mem_of_nodup ?_ ?_
  · rw [decInitDict, List.map_map]
    have : (Prod.fst ∘ fun i => ((i : Nat), [Char.ofNat i])) = id := rfl
    rw [this, List.map_id]
    exact List.nodup_range 256
  · rw [decInitDict]
    exact List.mem_map.mpr ⟨code, List.mem_range.mpr h, rfl⟩

/-- Codes at or above the initial size miss the initial decoder
dictionary. -/
theorem pyGet_decInit_ge {code : Nat} (h : 256 ≤ code) :
    pyGet (decInitDict 256) code = none := by
  rw [pyGet]
  have : (decInitDict 256).find? (fun p => p.1 = code) = none := by
    rw [List.find?_eq_none]
    intro x hx
    rw [decInitDict] at hx
    obtain ⟨i, hi, hpair⟩ := List.mem_map.mp hx
    rw [← hpair]
    simp only [decide_eq_true_eq]
    have := List.mem_range.mp hi
    omega
  rw [this]
  rfl

/-- A hit on the left part of an appended dictionary. -/
theorem pyGet_append_left {α β : Type} [DecidableEq α] {d1 : List (α × β)} (d2 : List (α × β))
    {k : α} {v : β} (h : pyGet d1 k = some v) : pyGet (d1 ++ d2) k = some v := by
  induction d1 with
  | nil => rw [pyGet] at h; simp at h
  | cons x d1 ih =>
    by_cases hx : x.1 = k
    · rw [pyGet_cons_eq d1 hx] at h
      rw [List.cons_append, pyGet_cons_eq (d1 ++ d2) hx]
      exact h
    · rw [pyGet_cons_ne x d1 k hx] at h
      rw [List.cons_append, pyGet_cons_ne x (d1 ++ d2) k hx]
      exact ih h

/-- A miss on the left part of an appended dictionary falls through. -/
theorem pyGet_append_right {α β : Type} [DecidableEq α] {d1 : List (α × β)} (d2 : List (α × β))
    {k : α} (h : pyGet d1 k = none) : pyGet (d1 ++ d2) k = pyGet d2 k := by
  induction d1 with
  | nil => rfl
  | cons x d1 ih =>
    by_cases hx : x.1 = k
    · rw [pyGet_cons_eq d1 hx] at h
      simp at h
    · rw [pyGet_cons_ne x d1 k hx] at h
      rw [List.cons_append, pyGet_cons_ne x (d1 ++ d2) k hx]
      exact ih h

/-- A hit among the encoder's grown entries names a position in the
entry list. -/
theorem entriesEnc_lookup : ∀ (E : List (List Char)) (base : Nat) (s : List Char) (e : Nat),
    pyGet (entriesEnc E base) s = some e →
      ∃ E1 E2, E = E1 ++ s :: E2 ∧ e = base + E1.length := by
  intro E
  induction E with
  | nil => intro base s e h; rw [entriesEnc, pyGet] at h; simp at h
  | cons s0 E ih =>
    intro base s e h
    rw [entriesEnc] at h
    by_cases hs : s0 = s
    · rw [pyGet_cons_eq _ hs] at h
      refine ⟨[], E, by rw [hs]; rfl, ?_⟩
      simp only [List.length_nil, Nat.add_zero]
      simp at h
      omega
    · rw [pyGet_cons_ne _ _ _ hs] at h
      obtain ⟨E1, E2, hE, he⟩ := ih (base + 1) s e h
      refine ⟨s0 :: E1, E2, by rw [hE]; rfl, ?_⟩
      simp only [List.length_cons]
      omega

/-- Appending one entry to the encoder entry list. -/
theorem entriesEnc_append : ∀ (E : List (List Char)) (s : List Char) (base : Nat),
    entriesEnc (E ++ [s]) base = entriesEnc E base ++ [(s, base + E.length)] := by
  intro E
  induction E with
  | nil => intro s base; simp [entriesEnc]
  | cons s0 E ih =>
    intro s base
    rw [List.cons_append, entriesEnc, entriesEnc, ih s (base + 1)]
    simp only [List.length_cons, List.cons_append, List.append_cancel_left_eq,
      List.cons.injEq, Prod.mk.injEq, and_true, true_and]
    omega

/-- Appending one entry to the decoder entry list. -/
theorem entriesDec_append : ∀ (E : List (List Char)) (s : List Char) (base : Nat),
    entriesDec (E ++ [s]) base = entriesDec E base ++ [(base + E.length, s)] := by
  intro E
  induction E with
  | nil => intro s base; simp [entriesDec]
  | cons s0 E ih =>
    intro s base
    rw [List.cons_append, entriesDec, entriesDec, ih s (base + 1)]
    simp only [List.length_cons, List.cons_append, List.append_cancel_left_eq,
      List.cons.injEq, Prod.mk.injEq, and_true, true_and]
    omega

/-- Looking up the decoder entry at a given position. -/
theorem entriesDec_lookup_at : ∀ (E1 : List (List Char)) (s : List Char)
    (E2 : List (List Char)) (base : Nat),
    pyGet (entriesDec (E1 ++ s :: E2) base) (base + E1.length) = some s := by
  intro E1
  induction E1 with
  | nil =>
    intro s E2 base
    rw [List.nil_append, entriesDec]
    exact pyGet_cons_eq _ (by simp)
  | cons s0 E1 ih =>
    intro s E2 base
    rw [List.cons_append, entriesDec, pyGet_cons_ne _ _ _ (by simp)]
    have := ih s E2 (base + 1)
    rwa [show base + 1 + E1.length = base + (s0 :: E1).length from by simp only [List.length_cons]; omega] at this

/-- Codes past the end miss the decoder entry list. -/
theorem entriesDec_lookup_none : ∀ (E : List (List Char)) (base code : Nat),
    base + E.length ≤ code → pyGet (entriesDec E base) code = none := by
  intro E
  induction E with
  | nil => intro base code _; rw [entriesDec, pyGet]; rfl
  | cons s0 E ih =>
    intro base code h
    simp only [List.length_cons] at h
    rw [entriesDec, pyGet_cons_ne _ _ _ (by simp; omega)]
    exact ih (base + 1) code (by omega)

/-- The decoder loop distributes over a one-code extension. -/
theorem decode_go_append_one : ∀ (cs : List Nat) (st : DecSt) (e : Nat),
    decode_go st (cs ++ [e]) = (decode_go st cs).bind (fun st2 => decode_step st2 e) := by
  intro cs
  induction cs with
  | nil =>
    intro st e
    show decode_go st [e] = decode_step st e
    rw [decode_go]
    cases hs : decode_step st e with
    | none => rfl
    | some st2 => rfl
  | cons c cs ih =>
    intro st e
    show decode_go st (c :: (cs ++ [e])) = _
    rw [decode_go, decode_go]
    cases hs : decode_step st c with
    | none => rfl
    | some st2 => exact ih st2 e

/-- The decoder run distributes over a one-code extension of a non-empty
code list. -/
theorem decode_run_append_one {codes : List Nat} (hne : codes ≠ []) (e : Nat) :
    decode_run (codes ++ [e]) 256 = (decode_run codes 256).bind (fun d => decode_step d e) := by
  match codes with
  | [] => exact absurd rfl hne
  | c0 :: rest =>
    rw [List.cons_append, decode_run, decode_run]
    cases h0 : pyGet (decInitDict 256) c0 with
    | none => rfl
    | some s0 => exact decode_go_append_one rest _ e

end LZWLookup


section LZWSimulation

open LZWCoding

/-- `decode_step` on a code present in the decoder dictionary. -/
theorem decode_step_of_get {d : DecSt} {e : Nat} {c0 : Char} {curt : List Char}
    (hget : pyGet d.dict e = some (c0 :: curt)) :
    decode_step d e = some ⟨d.dict ++ [(d.next, d.prev ++ [c0])], d.next + 1,
      c0 :: curt, d.acc ++ (c0 :: curt)⟩ := by
  simp [decode_step, hget]

/-- `decode_step` on the not-yet-created code `d.next`. -/
theorem decode_step_kwk {d : DecSt} {e : Nat} {p0 : Char} {prest : List Char}
    (hnone : pyGet d.dict e = none) (henext : e = d.next) (hprev0 : d.prev = p0 :: prest) :
    decode_step d e = some ⟨d.dict ++ [(d.next, d.prev ++ [p0])], d.next + 1,
      d.prev ++ [p0], d.acc ++ (d.prev ++ [p0])⟩ := by
  have hnone2 : pyGet d.dict d.next = none := henext ▸ hnone
  simp [decode_step, henext, hnone2, hprev0]

/-- Simulation step: when the encoder, whose dictionary extends the
decoder's entries `D` by the single entry `d.prev ++ [cur.headD]`, emits
the code `e` of its current match `cur`, the decoder processes `e` into
exactly `cur` and grows its dictionary by that same entry — including
the "not-yet-created" case `e = d.next`. -/
theorem decode_step_sim (d : DecSt) (D : List (List Char)) (cur : List Char) (e : Nat)
    (hprev : d.prev ≠ []) (hcur : cur ≠ [])
    (hdict : d.dict = decInitDict 256 ++ entriesDec D 256)
    (hnext : d.next = 256 + D.length)
    (hlook : pyGet (initDict ++ entriesEnc (D ++ [d.prev ++ [cur.headD 'a']]) 256) cur
      = some e) :
    decode_step d e
      = some ⟨decInitDict 256 ++ entriesDec (D ++ [d.prev ++ [cur.headD 'a']]) 256,
          256 + D.length + 1, cur, d.acc ++ cur⟩ := by
  obtain ⟨c0, curt, rfl⟩ : ∃ c0 curt, cur = c0 :: curt := by
    match cur, hcur with
    | c0 :: curt, _ => exact ⟨c0, curt, rfl⟩
  obtain ⟨p0, prest, hprev0⟩ : ∃ p0 prest, d.prev = p0 :: prest := by
    match hp : d.prev, hprev with
    | p0 :: prest, _ => exact ⟨p0, prest, rfl⟩
  cases hinit : pyGet initDict (c0 :: curt) with
  | some v =>
    have hv : some v = some e := by rw [← hlook, pyGet_append_left _ hinit]
    obtain ⟨hlt, hshape⟩ := pyGet_initDict_some (hv ▸ hinit)
    have hget : pyGet d.dict e = some (c0 :: curt) := by
      rw [hdict, hshape]
      exact pyGet_append_left _ (pyGet_decInit_lt hlt)
    rw [decode_step_of_get hget, hdict, hnext, entriesDec_append]
    simp [List.append_assoc]
  | none =>
    have hrest : pyGet (entriesEnc (D ++ [d.prev ++ [(c0 :: curt).headD 'a']]) 256)
        (c0 :: curt) = some e := by
      rw [← hlook, pyGet_append_right _ hinit]
    obtain ⟨E1, E2, hE, he⟩ := entriesEnc_lookup _ 256 (c0 :: curt) e hrest
    rcases List.eq_nil_or_concat' E2 with hE2 | ⟨E2', z, hE2⟩
    · -- the not-yet-created case: `cur` is the encoder's newest entry
      subst hE2
      have hlen : D.length = E1.length := by
        have h1 := congrArg List.length hE
        simp at h1
        omega
      obtain ⟨hD, hX⟩ := List.append_inj hE hlen
      have hXcur : d.prev ++ [c0] = c0 :: curt := by
        have h2 : d.prev ++ [(c0 :: curt).headD 'a'] = c0 :: curt := by injection hX
        simpa using h2
      have hp0c0 : p0 = c0 := by
        rw [hprev0] at hXcur
        rw [List.cons_append] at hXcur
        injection hXcur
      have hnone2 : pyGet d.dict e = none := by
        rw [hdict, pyGet_append_right _ (pyGet_decInit_ge (by omega))]
        exact entriesDec_lookup_none D 256 e (by omega)
      have henext : e = d.next := by omega
      subst hp0c0
      rw [decode_step_kwk hnone2 henext hprev0, hdict, hnext, entriesDec_append]
      simp [List.append_assoc, hXcur]
    · -- `cur` is a common entry of both dictionaries
      subst hE2
      have hE2 : D ++ [d.prev ++ [(c0 :: curt).headD 'a']] = (E1 ++ (c0 :: curt) :: E2') ++ [z] := by
        rw [hE]
        simp
      have hlen : D.length = (E1 ++ (c0 :: curt) :: E2').length := by
        have h1 := congrArg List.length hE2
        simp only [List.length_append, List.length_cons, List.length_singleton] at h1 ⊢
        omega
      obtain ⟨hD, _⟩ := List.append_inj hE2 hlen
      have hget : pyGet d.dict e = some (c0 :: curt) := by
        rw [hdict, pyGet_append_right _ (pyGet_decInit_ge (by omega)), hD, he]
        exact entriesDec_lookup_at E1 (c0 :: curt) E2' 256
      rw [decode_step_of_get hget, hdict, hnext, entriesDec_append]
      simp [List.append_assoc]

end LZWSimulation

section LZWInvariant

open LZWCoding

/-- Heads are unchanged by appending to a non-empty list. -/
theorem headD_append_single {l : List Char} (h : l ≠ []) (x : Char) (dflt : Char) :
    (l ++ [x]).headD dflt = l.headD dflt := by
  cases l with
  | nil => exact absurd rfl h
  | cons a t => rfl

/-- `decode` on a non-empty code list is the mapped decoder run. -/
theorem decode_ne_nil {codes : List Nat} (h : codes ≠ []) :
    decode codes 256 = (decode_run codes 256).map (fun st => st.acc) := by
  match codes with
  | [] => exact absurd rfl h
  | c :: cs => rfl

/-- One encoder step preserves the coupling invariant, for a byte-range
character. -/
theorem encode_step_inv {p : List Char} {st : EncSt} {ch : Char} (hch : ch.toNat < 256)
    (hinv : EncInv p st) :
    ∃ st2, encode_step st ch = some st2 ∧ EncInv (p ++ [ch]) st2 := by
  rcases hinv with ⟨hp, hst⟩ | ⟨hp, hcur, hsome, hrest⟩
  · -- nothing consumed yet
    subst hst
    subst hp
    have hc : pyGet initDict [ch] = some ch.toNat := pyGet_initDict_char hch
    refine ⟨⟨initDict, 256, [ch], []⟩, ?_, ?_⟩
    · simp [encode_step, hc]
    · refine Or.inr ⟨by simp, by simp, ?_, Or.inl ⟨rfl, rfl, rfl, by simp⟩⟩
      rw [show (⟨initDict, 256, [ch], []⟩ : EncSt).dict = initDict from rfl,
        show (⟨initDict, 256, [ch], []⟩ : EncSt).cur = [ch] from rfl,
        pyGet_initDict_char hch]
      rfl
  · rcases hrest with ⟨hout, hdict, hnext, hcureq⟩ | hdec
    · -- no emissions yet: the current match covers all of `p`
      cases hcomb : pyGet st.dict (st.cur ++ [ch]) with
      | some v =>
        refine ⟨⟨st.dict, st.next, st.cur ++ [ch], st.out⟩, ?_, ?_⟩
        · simp [encode_step, hcomb]
        · refine Or.inr ⟨by simp, by simp [hcur], ?_, Or.inl ⟨hout, hdict, hnext, by rw [hcureq]⟩⟩
          rw [show (⟨st.dict, st.next, st.cur ++ [ch], st.out⟩ : EncSt).dict = st.dict from rfl]
          rw [show (⟨st.dict, st.next, st.cur ++ [ch], st.out⟩ : EncSt).cur
            = st.cur ++ [ch] from rfl]
          rw [hcomb]
          rfl
      | none =>
        obtain ⟨code, hcode⟩ := Option.isSome_iff_exists.mp hsome
        have hcode0 : pyGet initDict st.cur = some code := by rw [← hdict]; exact hcode
        obtain ⟨hlt, hshape⟩ := pyGet_initDict_some hcode0
        refine ⟨⟨st.dict ++ [(st.cur ++ [ch], st.next)], st.next + 1, [ch],
          st.out ++ [code]⟩, ?_, ?_⟩
        · simp [encode_step, hcomb, hcode]
        · refine Or.inr ⟨by simp, by simp, ?_, Or.inr
            ⟨⟨decInitDict 256, 256, st.cur, st.cur⟩, [], ?_, ?_, hcur, ?_, ?_, ?_, ?_⟩⟩
          · rw [show (⟨st.dict ++ [(st.cur ++ [ch], st.next)], st.next + 1, [ch],
                st.out ++ [code]⟩ : EncSt).dict = st.dict ++ [(st.cur ++ [ch], st.next)] from rfl,
              show (⟨st.dict ++ [(st.cur ++ [ch], st.next)], st.next + 1, [ch],
                st.out ++ [code]⟩ : EncSt).cur = [ch] from rfl,
              hdict, pyGet_append_left _ (pyGet_initDict_char hch)]
            rfl
          · show decode_run (st.out ++ [code]) 256 = _
            rw [hout, List.nil_append, decode_run, pyGet_decInit_lt hlt, ← hshape]
            rfl
          · show st.cur ++ [ch] = p ++ [ch]
            rw [hcureq]
          · show decInitDict 256 = decInitDict 256 ++ entriesDec [] 256
            rw [show entriesDec [] 256 = [] from rfl, List.append_nil]
          · show 256 = 256 + ([] : List (List Char)).length
            rw [show ([] : List (List Char)).length = 0 from rfl]
          · show st.dict ++ [(st.cur ++ [ch], st.next)]
              = initDict ++ entriesEnc ([] ++ [st.cur ++ [([ch].headD 'a')]]) 256
            rw [hdict, hnext]
            rfl
          · show st.next + 1 = 256 + ([] : List (List Char)).length + 1
            rw [hnext, show ([] : List (List Char)).length = 0 from rfl]
    · obtain ⟨d, D, hrun, hacc, hprev, hddict, hdnext, hedict, henext⟩ := hdec
      cases hcomb : pyGet st.dict (st.cur ++ [ch]) with
      | some v =>
        refine ⟨⟨st.dict, st.next, st.cur ++ [ch], st.out⟩, ?_, ?_⟩
        · simp [encode_step, hcomb]
        · refine Or.inr ⟨by simp, by simp [hcur], ?_, Or.inr
            ⟨d, D, hrun, ?_, hprev, hddict, hdnext, ?_, henext⟩⟩
          · rw [show (⟨st.dict, st.next, st.cur ++ [ch], st.out⟩ : EncSt).dict
                = st.dict from rfl,
              show (⟨st.dict, st.next, st.cur ++ [ch], st.out⟩ : EncSt).cur
                = st.cur ++ [ch] from rfl, hcomb]
            rfl
          · show d.acc ++ (st.cur ++ [ch]) = p ++ [ch]
            rw [← List.append_assoc, hacc]
          · show st.dict = initDict
              ++ entriesEnc (D ++ [d.prev ++ [(st.cur ++ [ch]).headD 'a']]) 256
            rw [headD_append_single hcur ch 'a']
            exact hedict
      | none =>
        obtain ⟨code, hcode⟩ := Option.isSome_iff_exists.mp hsome
        have hlook : pyGet (initDict
            ++ entriesEnc (D ++ [d.prev ++ [st.cur.headD 'a']]) 256) st.cur = some code := by
          rw [← hedict]
          exact hcode
        have hstep := decode_step_sim d D st.cur code hprev hcur hddict hdnext hlook
        have houtne : st.out ≠ [] := by
          intro h
          rw [h] at hrun
          rw [decode_run] at hrun
          simp at hrun
        refine ⟨⟨st.dict ++ [(st.cur ++ [ch], st.next)], st.next + 1, [ch],
          st.out ++ [code]⟩, ?_, ?_⟩
        · simp [encode_step, hcomb, hcode]
        · refine Or.inr ⟨by simp, by simp, ?_, Or.inr
            ⟨⟨decInitDict 256 ++ entriesDec (D ++ [d.prev ++ [st.cur.headD 'a']]) 256,
                256 + D.length + 1, st.cur, d.acc ++ st.cur⟩,
              D ++ [d.prev ++ [st.cur.headD 'a']], ?_, ?_, hcur, ?_, ?_, ?_, ?_⟩⟩
          · rw [show (⟨st.dict ++ [(st.cur ++ [ch], st.next)], st.next + 1, [ch],
                st.out ++ [code]⟩ : EncSt).dict = st.dict ++ [(st.cur ++ [ch], st.next)] from rfl,
              show (⟨st.dict ++ [(st.cur ++ [ch], st.next)], st.next + 1, [ch],
                st.out ++ [code]⟩ : EncSt).cur = [ch] from rfl,
              hedict, List.append_assoc, pyGet_append_left _ (pyGet_initDict_char hch)]
            rfl
          · show decode_run (st.out ++ [code]) 256 = _
            rw [decode_run_append_one houtne, hrun]
            simpa using hstep
          · show (d.acc ++ st.cur) ++ [ch] = p ++ [ch]
            rw [hacc]
          · rfl
          · show 256 + D.length + 1
              = 256 + (D ++ [d.prev ++ [st.cur.headD 'a']]).length
            simp only [List.length_append, List.length_singleton]
            omega
          · show st.dict ++ [(st.cur ++ [ch], st.next)]
              = initDict ++ entriesEnc ((D ++ [d.prev ++ [st.cur.headD 'a']])
                  ++ [st.cur ++ [ch]]) 256
            rw [entriesEnc_append (D ++ [d.prev ++ [st.cur.headD 'a']]) (st.cur ++ [ch]) 256]
            rw [hedict, henext]
            simp [List.append_assoc, Nat.add_assoc]
          · show st.next + 1
              = 256 + (D ++ [d.prev ++ [st.cur.headD 'a']]).length + 1
            rw [henext]
            simp only [List.length_append, List.length_singleton]
            omega

/-- The encoder loop preserves the coupling invariant over any byte-range
input. -/
theorem encode_go_inv : ∀ (text p : List Char) (st : EncSt),
    (∀ c ∈ text, c.toNat < 256) → EncInv p st →
    ∃ st2, encode_go st text = some st2 ∧ EncInv (p ++ text) st2 := by
  intro text
  induction text with
  | nil =>
    intro p st _ hinv
    exact ⟨st, rfl, by simpa using hinv⟩
  | cons ch rest ih =>
    intro p st hch hinv
    obtain ⟨st1, hstep, hinv1⟩ := encode_step_inv (hch ch (by simp)) hinv
    obtain ⟨st2, hgo, hinv2⟩ := ih (p ++ [ch]) st1 (fun c hc => hch c (by simp [hc])) hinv1
    refine ⟨st2, ?_, ?_⟩
    · rw [encode_go, hstep]
      exact hgo
    · rw [List.append_assoc] at hinv2
      simpa using hinv2

end LZWInvariant

/-- C2.  LZW round-trip: for every text whose characters are all in the
initial 256-entry alphabet, `encode` succeeds and decoding its code list
with the deterministically reinitialised 256-entry dictionary returns
the text exactly — including the not-yet-created code case, handled in
`decode_step_sim`. -/
theorem lzw_roundtrip :
    ∀ text : List Char, (∀ c ∈ text, c.toNat < 256) →
      ∃ codes dict, LZWCoding.encode text = some (codes, dict) ∧
        LZWCoding.decode codes 256 = some text := by
  intro text hch
  have hinv0 : LZWCoding.EncInv [] ⟨LZWCoding.initDict, 256, [], []⟩ := Or.inl ⟨rfl, rfl⟩
  obtain ⟨st, hgo, hinv⟩ := encode_go_inv text [] _ hch hinv0
  rw [List.nil_append] at hinv
  rcases hinv with ⟨hp, hst⟩ | ⟨hp, hcur, hsome, hrest⟩
  · -- empty text
    subst hp
    refine ⟨[], LZWCoding.initDict, ?_, rfl⟩
    rw [LZWCoding.encode, hgo, hst]
    rfl
  · obtain ⟨code, hcode⟩ := Option.isSome_iff_exists.mp hsome
    refine ⟨st.out ++ [code], st.dict, ?_, ?_⟩
    · rw [LZWCoding.encode, hgo]
      show (if st.cur ≠ [] then
        match pyGet st.dict st.cur with
        | some c => some (st.out ++ [c], st.dict)
        | none => none
        else some (st.out, st.dict)) = _
      rw [if_pos hcur, hcode]
    · rcases hrest with ⟨hout, hdict, hnext, hcureq⟩ | hdec
      · -- single-run text: the only emission is the final one
        have hcode0 : pyGet LZWCoding.initDict st.cur = some code := by
          rw [← hdict]
          exact hcode
        obtain ⟨hlt, hshape⟩ := pyGet_initDict_some hcode0
        rw [hout, List.nil_append, decode_ne_nil (by simp), LZWCoding.decode_run,
          pyGet_decInit_lt hlt, ← hshape]
        show some st.cur = some text
        rw [hcureq]
      · obtain ⟨d, D, hrun, hacc, hprev, hddict, hdnext, hedict, henext⟩ := hdec
        have houtne : st.out ≠ [] := by
          intro h
          rw [h] at hrun
          rw [LZWCoding.decode_run] at hrun
          simp at hrun
        have hlook : pyGet (LZWCoding.initDict
            ++ LZWCoding.entriesEnc (D ++ [d.prev ++ [st.cur.headD 'a']]) 256) st.cur
            = some code := by
          rw [← hedict]
          exact hcode
        have hstep := decode_step_sim d D st.cur code hprev hcur hddict hdnext hlook
        rw [decode_ne_nil (by simp), decode_run_append_one houtne, hrun]
        show (LZWCoding.decode_step d code).map (fun st => st.acc) = some text
        rw [hstep]
        show some (d.acc ++ st.cur) = some text
        rw [hacc]

/-- Witness for C2 at the input `"aaa"`, whose encoding `[97, 256]` makes
the decoder take the not-yet-created-code branch on 256. -/
theorem lzw_roundtrip_witness :
    (∀ c ∈ (['a', 'a', 'a'] : List Char), c.toNat < 256) ∧
      ∃ codes dict, LZWCoding.encode ['a', 'a', 'a'] = some (codes, dict) ∧
        LZWCoding.decode codes 256 = some ['a', 'a', 'a'] :=
  ⟨by decide, lzw_roundtrip ['a', 'a', 'a'] (by decide)⟩
